import Mathlib

/-!
Verification of the canonical-chain manager of go-nebulas (core/blockchain.go).

The Go source is shallowly embedded: byte strings become lists of naturals,
the key-value storage collaborator becomes an association list with explicit
fault injection (keys whose Put or Get fails with an I/O error), the two
hashicorp LRU caches become bounded association lists, and every Go loop
becomes a fuel-indexed recursion whose fuel is large enough that, on the
well-formed stores the theorems quantify over, the fuel is never exhausted
(an exhausted fuel marks divergence of the original loop and is reported by
the distinguished error value Err.outOfFuel).

Types and functions whose Go definitions live outside the excerpt
(the Block record, LoadBlockFromStorage, NewGenesisBlock, the storage and
LRU collaborators) are modelled from the specification, as flagged by their
doc comments.  Everything else is a direct translation of blockchain.go.
-/

set_option linter.unusedVariables false

/-- Byte strings (hashes, storage keys, encoded blocks) as lists of naturals. -/
abbrev Bytes := List Nat

/-- Error kinds of the subsystem.  The first two are the storage collaborator's
errors (storage.ErrKeyNotFound and any other I/O error); the middle ones are
the named errors of the core package; decodeFailed signals that stored block
bytes did not decode; outOfFuel marks divergence of a Go loop (never reached
on well-formed stores). -/
inductive Err where
  | keyNotFound
  | ioErr
  | missingParentBlock
  | cannotFindBlockAtGivenHeight
  | genesisConfNotMatch
  | decodeFailed
  | outOfFuel
deriving DecidableEq, Repr

/-- Modelled from the spec: the key-value storage collaborator (section 6),
exposing Get and Put over byte keys.  data is the stored mapping (most recent
write first); failPut and failGet inject I/O faults on the listed keys, so
that storage-error paths of the Go code can be exercised. -/
structure Storage where
  data : List (Bytes × Bytes)
  failPut : List Bytes
  failGet : List Bytes
deriving DecidableEq, Repr

/-- Modelled from the spec: Get returns the stored bytes, ErrKeyNotFound on a
missing key, or an I/O error on an injected fault. -/
def Storage.get (s : Storage) (k : Bytes) : Except Err Bytes :=
  if k ∈ s.failGet then .error .ioErr
  else
    match s.data.lookup k with
    | some v => .ok v
    | none => .error .keyNotFound

/-- Modelled from the spec: Put overwrites the entry at the key, or fails with
an I/O error on an injected fault (leaving the store unchanged). -/
def Storage.put (s : Storage) (k v : Bytes) : Except Err Storage :=
  if k ∈ s.failPut then .error .ioErr
  else .ok { s with data := (k, v) :: s.data }

/-- Modelled from the spec: the Block record (section 3).  Transactions are
opaque identifiers; only the listed attributes are visible to the subsystem. -/
structure Block where
  hash : Bytes
  parentHash : Bytes
  height : Nat
  chainID : Nat
  timestamp : Int
  transactions : List Nat
deriving DecidableEq, Repr

/-- Length-prefixed encoding of a byte string, used by the block codec. -/
def encodeBytes (l : Bytes) : Bytes := l.length :: l

/-- Reads one length-prefixed byte string, returning it and the remainder. -/
def readBytes : Bytes → Option (Bytes × Bytes)
  | [] => none
  | n :: rest => if n ≤ rest.length then some (rest.take n, rest.drop n) else none

/-- Sign-and-magnitude encoding of an integer. -/
def encodeInt (i : Int) : Bytes :=
  if 0 ≤ i then [0, i.toNat] else [1, (-i).toNat]

/-- Modelled from the spec: the canonical binary encoding of a block
(section 6; the source uses protobuf).  It is injective, so decode of encode
is the identity. -/
def encodeBlock (b : Block) : Bytes :=
  encodeBytes b.hash ++ encodeBytes b.parentHash ++
    [b.height, b.chainID] ++ encodeInt b.timestamp ++ encodeBytes b.transactions

/-- Modelled from the spec: decoding of stored block bytes; returns none on
corrupt bytes. -/
def decodeBlock (bs : Bytes) : Option Block :=
  match readBytes bs with
  | none => none
  | some (h, r1) =>
    match readBytes r1 with
    | none => none
    | some (ph, r2) =>
      match r2 with
      | ht :: cid :: s :: t :: r3 =>
        match readBytes r3 with
        | some (txs, []) =>
          some { hash := h, parentHash := ph, height := ht, chainID := cid,
                 timestamp := if s = 0 then (t : Int) else -(t : Int),
                 transactions := txs }
        | _ => none
      | _ => none

/-- Modelled from the spec: a bounded LRU cache keyed by block hash
(sections 4.2 and 4.3).  Entries are most-recent first; insertion beyond the
capacity evicts the least recent entry.  The recency bump that the hashicorp
library performs on reads is omitted: it is observable only through eviction
order, which no claim depends on. -/
structure LRU where
  cap : Nat
  entries : List (Bytes × Block)
deriving DecidableEq, Repr

/-- Cache lookup. -/
def LRU.get (c : LRU) (k : Bytes) : Option Block := c.entries.lookup k

/-- ContainsOrAdd: if the key exists do nothing, else insert (evicting beyond
the capacity). -/
def LRU.containsOrAdd (c : LRU) (k : Bytes) (v : Block) : LRU :=
  if (c.entries.lookup k).isSome then c
  else { c with entries := ((k, v) :: c.entries).take c.cap }

/-- Remove a key from the cache. -/
def LRU.remove (c : LRU) (k : Bytes) : LRU :=
  { c with entries := c.entries.filter (fun e => !(e.1 == k)) }

/-- Keys currently present. -/
def LRU.keys (c : LRU) : List Bytes := c.entries.map (fun e => e.1)

/-- Modelled from the spec: the genesis configuration, of which only the
chain id is visible to this subsystem. -/
structure GenesisConf where
  chainID : Nat
deriving DecidableEq, Repr

/-- The BlockChain state: translation of the BlockChain struct of
blockchain.go restricted to the fields the excerpt reads or writes.  txPool
records the transactions moved back into the pending pool by
ReturnTransactions during reverts. -/
structure BlockChain where
  chainID : Nat
  genesis : GenesisConf
  genesisBlock : Block
  tailBlock : Block
  cachedBlocks : LRU
  detachedTailBlocks : LRU
  storage : Storage
  txPool : List Nat
deriving DecidableEq, Repr

/-- 2 to the 64, the modulus of Go's uint64 arithmetic. -/
def U64 : Nat := 2 ^ 64

/-- byteutils.FromUint64: the 8-byte big-endian encoding of a height, the key
shape of the height index. -/
def fromUint64 (n : Nat) : Bytes :=
  [n / 256 ^ 7 % 256, n / 256 ^ 6 % 256, n / 256 ^ 5 % 256, n / 256 ^ 4 % 256,
   n / 256 ^ 3 % 256, n / 256 ^ 2 % 256, n / 256 % 256, n % 256]

/-- The Tail constant of blockchain.go: the ASCII bytes of blockchain_tail,
the storage key of the persisted head pointer. -/
def Tail : Bytes := [98, 108, 111, 99, 107, 99, 104, 97, 105, 110, 95, 116, 97, 105, 108]

/-- Modelled from the spec: the fixed genesis sentinel key (section 6); its
concrete value is implementation-defined. -/
def GenesisHash : Bytes := [9, 9, 9]

/-- Modelled from the spec: LoadBlockFromStorage (not in the excerpt) fetches
the bytes at the hash, propagates storage errors, and decodes them, a decode
failure being a data-corruption error (section 4.1). -/
def LoadBlockFromStorage (h : Bytes) (s : Storage) : Except Err Block :=
  match s.get h with
  | .error e => .error e
  | .ok bs =>
    match decodeBlock bs with
    | some b => .ok b
    | none => .error .decodeFailed

/-- GetBlock of blockchain.go: consult the block cache, else load from
storage; any load error is swallowed and reported as nil (none). -/
def GetBlock (bc : BlockChain) (h : Bytes) : Option Block :=
  match bc.cachedBlocks.get h with
  | some b => some b
  | none =>
    match LoadBlockFromStorage h bc.storage with
    | .ok b => some b
    | .error _ => none

/-- GetBlockByHeight of blockchain.go: read the height index, returning nil
(none) on any storage error, then dereference the hash via GetBlock. -/
def GetBlockByHeight (bc : BlockChain) (height : Nat) : Option Block :=
  match bc.storage.get (fromUint64 height) with
  | .error _ => none
  | .ok blockHash => GetBlock bc blockHash

/-- The effect of Block.ReturnTransactions: the block's transactions move
back into the pending transaction pool. -/
def returnTransactions (bc : BlockChain) (b : Block) : BlockChain :=
  { bc with txPool := bc.txPool ++ b.transactions }

/-- revertBlocks of blockchain.go: starting from the block to, return each
visited block's transactions to the pool and step to its parent, until the
block from is reached; a parent miss aborts with ErrMissingParentBlock (the
already performed returns stand).  The revert-count metrics of the source are
observational and omitted. -/
def revertBlocks (bc : BlockChain) (frm : Block) : Nat → Block → BlockChain × Except Err Unit
  | 0, reverted =>
    if reverted.hash = frm.hash then (bc, .ok ()) else (bc, .error .outOfFuel)
  | fuel + 1, reverted =>
    if reverted.hash = frm.hash then (bc, .ok ())
    else
      let bc1 := returnTransactions bc reverted
      match GetBlock bc1 reverted.parentHash with
      | some p => revertBlocks bc1 frm fuel p
      | none => (bc1, .error .missingParentBlock)

/-- buildIndexByBlockHeight of blockchain.go: starting from the block to,
write heightIndex of its height to its hash and step to its parent, until the
block from is reached; a Put error is propagated unchanged and a parent miss
aborts with ErrMissingParentBlock (entries already written stand). -/
def buildIndexByBlockHeight (bc : BlockChain) (frm : Block) : Nat → Block → BlockChain × Except Err Unit
  | 0, cur =>
    if cur.hash = frm.hash then (bc, .ok ()) else (bc, .error .outOfFuel)
  | fuel + 1, cur =>
    if cur.hash = frm.hash then (bc, .ok ())
    else
      match bc.storage.put (fromUint64 cur.height) cur.hash with
      | .error e => (bc, .error e)
      | .ok st =>
        let bc1 := { bc with storage := st }
        match GetBlock bc1 cur.parentHash with
        | some p => buildIndexByBlockHeight bc1 frm fuel p
        | none => (bc1, .error .missingParentBlock)

/-- storeBlockToStorage of blockchain.go: persist the encoded block under its
hash. -/
def storeBlockToStorage (bc : BlockChain) (b : Block) : Except Err Storage :=
  bc.storage.put b.hash (encodeBlock b)

/-- storeTailToStorage of blockchain.go: persist the head pointer. -/
def storeTailToStorage (bc : BlockChain) (b : Block) : Except Err Storage :=
  bc.storage.put Tail b.hash

/-- One descending loop of FindCommonAncestorWithTail: while the cursor is
strictly higher than the bound, step to its parent; a miss aborts with
ErrMissingParentBlock. -/
def descendAbove (bc : BlockChain) (bound : Nat) : Nat → Block → Except Err Block
  | 0, b => if bound < b.height then .error .outOfFuel else .ok b
  | fuel + 1, b =>
    if bound < b.height then
      match GetBlock bc b.parentHash with
      | some p => descendAbove bc bound fuel p
      | none => .error .missingParentBlock
    else .ok b

/-- The final loop of FindCommonAncestorWithTail: while the two cursors have
different hashes, step both to their parents; a miss on either side aborts
with ErrMissingParentBlock.  Returns the target-side cursor. -/
def meetLoop (bc : BlockChain) : Nat → Block → Block → Except Err Block
  | 0, tl, tg => if tl.hash = tg.hash then .ok tg else .error .outOfFuel
  | fuel + 1, tl, tg =>
    if tl.hash = tg.hash then .ok tg
    else
      match GetBlock bc tl.parentHash, GetBlock bc tg.parentHash with
      | some tl1, some tg1 => meetLoop bc fuel tl1 tg1
      | _, _ => .error .missingParentBlock

/-- FindCommonAncestorWithTail of blockchain.go: fast path through the height
index when the block may already be canonical; otherwise anchor the target on
the block itself or its parent, align heights by the two descending loops,
then walk both cursors to their meeting point. -/
def FindCommonAncestorWithTail (bc : BlockChain) (block : Block) : Except Err Block :=
  let tail := bc.tailBlock
  if block.height ≤ tail.height &&
      (match GetBlockByHeight bc block.height with
       | some localBlock => localBlock.hash == block.hash
       | none => false) then
    .ok block
  else
    match (match GetBlock bc block.hash with
           | some t => some t
           | none => GetBlock bc block.parentHash) with
    | none => .error .missingParentBlock
    | some target =>
      match descendAbove bc target.height (tail.height + 1) tail with
      | .error e => .error e
      | .ok tail1 =>
        match descendAbove bc tail1.height (target.height + 1) target with
        | .error e => .error e
        | .ok target1 => meetLoop bc (tail1.height + 1) tail1 target1

/-- SetTailBlock of blockchain.go: find the common ancestor with the current
tail (on error, abort with it); revert the old branch, an error there being
logged and skipped; rebuild the height index along the new branch (on error,
abort with it); persist the head pointer (on error, abort with it); finally
commit the new tail in memory.  The gauges of the source are observational
and omitted. -/
def SetTailBlock (bc : BlockChain) (newTail : Block) : BlockChain × Except Err Unit :=
  let oldTail := bc.tailBlock
  match FindCommonAncestorWithTail bc newTail with
  | .error e => (bc, .error e)
  | .ok ancestor =>
    let bc1 := (revertBlocks bc ancestor (oldTail.height + 1) oldTail).1
    match buildIndexByBlockHeight bc1 ancestor (newTail.height + 1) newTail with
    | (bc2, .error e) => (bc2, .error e)
    | (bc2, .ok _) =>
      match storeTailToStorage bc2 newTail with
      | .error e => (bc2, .error e)
      | .ok st =>
        ({ bc2 with storage := st, tailBlock := newTail }, .ok ())

/-- Go's uint64 conversion of a signed integer: reduction mod 2 to the 64. -/
def goUint64OfInt (n : Int) : Nat := (n % (U64 : Int)).toNat

/-- The loop of FetchDescendantInCanonicalChain: while the next height is at
most the tail height (in wrapping uint64 arithmetic) and fewer than the
uint64-converted bound of blocks have been collected, dereference the next
height; a miss there is ErrCannotFindBlockAtGivenHeight. -/
def fetchLoop (bc : BlockChain) (curHeight tailHeight nU : Nat) :
    Nat → Nat → List Block → Except Err (List Block)
  | 0, _, _ => .error .outOfFuel
  | fuel + 1, index, res =>
    if (curHeight + index) % U64 ≤ tailHeight ∧ index < nU then
      match GetBlockByHeight bc ((curHeight + index) % U64) with
      | none => .error .cannotFindBlockAtGivenHeight
      | some b => fetchLoop bc curHeight tailHeight nU fuel (index + 1) (res ++ [b])
    else .ok res

/-- FetchDescendantInCanonicalChain of blockchain.go: collect up to uint64(n)
canonical blocks at the heights following the given block, stopping at the
current tail.  The fuel is a bound on the iteration count of the Go loop
(whose index is capped both by uint64(n) and, up to one uint64 wrap of the
height sum, by the tail height), so it is never exhausted. -/
def FetchDescendantInCanonicalChain (bc : BlockChain) (n : Int) (block : Block) :
    Except Err (List Block) :=
  let curHeight := (block.height + 1) % U64
  let tailHeight := bc.tailBlock.height
  let nU := goUint64OfInt n
  fetchLoop bc curHeight tailHeight nU (min (nU + 1) (2 * tailHeight + 3)) 0 []

/-- The allBlocks loop of putVerifiedNewBlocks: admit each block into the
block cache, then persist it, aborting on a Put error (blocks already
processed stand, and the failing block stays cached).  The on-chain timers of
the source are observational and omitted. -/
def putBlocksLoop (bc : BlockChain) : List Block → BlockChain × Except Err Unit
  | [] => (bc, .ok ())
  | v :: rest =>
    let bc1 := { bc with cachedBlocks := bc.cachedBlocks.containsOrAdd v.hash v }
    match storeBlockToStorage bc1 v with
    | .error e => (bc1, .error e)
    | .ok st => putBlocksLoop { bc1 with storage := st } rest

/-- putVerifiedNewBlocks of blockchain.go: persist the batch of verified
blocks (caching each first), then insert each tail block into the
detached-tails set, and finally remove the parent from it. -/
def putVerifiedNewBlocks (bc : BlockChain) (parent : Block)
    (allBlocks tailBlocks : List Block) : BlockChain × Except Err Unit :=
  match putBlocksLoop bc allBlocks with
  | (bc1, .error e) => (bc1, .error e)
  | (bc1, .ok _) =>
    let bc2 := { bc1 with
      detachedTailBlocks :=
        tailBlocks.foldl (fun (c : LRU) (v : Block) => c.containsOrAdd v.hash v) bc1.detachedTailBlocks }
    ({ bc2 with detachedTailBlocks := bc2.detachedTailBlocks.remove parent.hash }, .ok ())

/-- Modelled from the spec: the claimed update order of the detached-tails
set (section 4.3 and claim C6) — first remove the parent's hash, then insert
each tail block's hash.  Kept only to be compared with putVerifiedNewBlocks,
whose Go code performs the two steps in the opposite order. -/
def putVerifiedNewBlocksSpecOrder (bc : BlockChain) (parent : Block)
    (allBlocks tailBlocks : List Block) : BlockChain × Except Err Unit :=
  match putBlocksLoop bc allBlocks with
  | (bc1, .error e) => (bc1, .error e)
  | (bc1, .ok _) =>
    let bc2 := { bc1 with detachedTailBlocks := bc1.detachedTailBlocks.remove parent.hash }
    ({ bc2 with
       detachedTailBlocks :=
         tailBlocks.foldl (fun c v => c.containsOrAdd v.hash v) bc2.detachedTailBlocks },
     .ok ())

/-- Modelled from the spec: NewGenesisBlock (not in the excerpt) builds the
genesis block from the configuration; its hash is the genesis sentinel. -/
def NewGenesisBlock (conf : GenesisConf) : Block :=
  { hash := GenesisHash, parentHash := [], height := 1, chainID := conf.chainID,
    timestamp := 0, transactions := [] }

/-- loadGenesisFromStorage of blockchain.go: try to load the block under the
genesis sentinel; on any load failure build a fresh genesis from the
configuration, persist it and its height-index entry; on success demand that
its chain id match the configured one, ErrGenesisConfNotMatch otherwise. -/
def loadGenesisFromStorage (conf : GenesisConf) (s : Storage) :
    Except Err (Block × Storage) :=
  match LoadBlockFromStorage GenesisHash s with
  | .error _ =>
    let genesis := NewGenesisBlock conf
    match s.put genesis.hash (encodeBlock genesis) with
    | .error e => .error e
    | .ok s1 =>
      match s1.put (fromUint64 genesis.height) genesis.hash with
      | .error e => .error e
      | .ok s2 => .ok (genesis, s2)
  | .ok genesis =>
    if conf.chainID ≠ genesis.chainID then .error .genesisConfNotMatch
    else .ok (genesis, s)

/-- loadTailFromStorage of blockchain.go: read the head pointer; a missing
key falls back to the genesis (persisting the pointer), any other storage
error is propagated; otherwise dereference the pointer. -/
def loadTailFromStorage (conf : GenesisConf) (s : Storage) :
    Except Err (Block × Storage) :=
  match s.get Tail with
  | .error .keyNotFound =>
    match loadGenesisFromStorage conf s with
    | .error e => .error e
    | .ok (genesis, s1) =>
      match s1.put Tail genesis.hash with
      | .error e => .error e
      | .ok s2 => .ok (genesis, s2)
  | .error e => .error e
  | .ok hash =>
    match LoadBlockFromStorage hash s with
    | .error e => .error e
    | .ok b => .ok (b, s)

/-- NewBlockChain of blockchain.go: bootstrap.  The block-pool and
transaction-pool constructors always succeed (their sizes are positive
constants), and the configuration dump after the genesis load is logging
only; both are therefore elided.  The genesis load and the tail load are
translated faithfully, each aborting construction on error. -/
def NewBlockChain (conf : GenesisConf) (s : Storage) : Except Err BlockChain :=
  match loadGenesisFromStorage conf s with
  | .error e => .error e
  | .ok (genesisBlock, s1) =>
    match loadTailFromStorage conf s1 with
    | .error e => .error e
    | .ok (tailBlock, s2) =>
      .ok { chainID := conf.chainID, genesis := conf, genesisBlock := genesisBlock,
            tailBlock := tailBlock,
            cachedBlocks := { cap := 1024, entries := [] },
            detachedTailBlocks := { cap := 64, entries := [] },
            storage := s2, txPool := [] }

/-! ## Specification-side notions: ancestry, well-formed stores, walk paths -/

/-- k-fold parent resolution through GetBlock. -/
def iterParent (bc : BlockChain) : Nat → Block → Option Block
  | 0, b => some b
  | k + 1, b => (GetBlock bc b.parentHash).bind (iterParent bc k)

/-- The ancestor of a block at a given height, obtained by walking parent
pointers (meaningful when the height is at most the block's height and the
store is well formed). -/
def anc (bc : BlockChain) (b : Block) (h : Nat) : Option Block :=
  iterParent bc (b.height - h) b

/-- A block is in the store when looking its own hash up yields it. -/
def InStore (bc : BlockChain) (b : Block) : Prop :=
  GetBlock bc b.hash = some b

/-- Local well-formedness of one resolvable block, relative to a genesis
height g: its height is at least g, and strictly above g its parent resolves
with height exactly one less. -/
def blockOK (bc : BlockChain) (g : Nat) (b : Block) : Bool :=
  decide (g ≤ b.height) &&
    (if g < b.height then
       match GetBlock bc b.parentHash with
       | some p => p.height + 1 == b.height
       | none => false
     else true)

/-- All keys at which GetBlock can possibly resolve: the cache keys and the
storage keys. -/
def storeKeys (bc : BlockChain) : List Bytes :=
  bc.cachedBlocks.keys ++ bc.storage.data.map (fun e => e.1)

/-- Well-formedness of the store relative to a genesis height g: every
resolvable block is keyed by its own hash and locally well formed. -/
def StoreWF (bc : BlockChain) (g : Nat) : Bool :=
  (storeKeys bc).all (fun k =>
    match GetBlock bc k with
    | some b => b.hash == k && blockOK bc g b
    | none => true)

/-- c is a common ancestor of a and b: it lies on both parent-pointer chains,
at its own height. -/
def IsCommonAncestor (bc : BlockChain) (g : Nat) (c a b : Block) : Prop :=
  g ≤ c.height ∧ c.height ≤ a.height ∧ c.height ≤ b.height ∧
    anc bc a c.height = some c ∧ anc bc b c.height = some c

/-- Soundness of the height index at one height: if the canonical lookup at
the height of b returns a block with b's hash, then b is the tail's ancestor
there.  This is the spec's height-index invariant restricted to the single
height that the fast path of FindCommonAncestorWithTail consults. -/
def fastPathSound (bc : BlockChain) (b : Block) : Bool :=
  match GetBlockByHeight bc b.height with
  | some lb => !(lb.hash == b.hash) || (anc bc bc.tailBlock b.height == some b)
  | none => true

/-- Consecutive parent-pointer links along a list of blocks. -/
def linked (bc : BlockChain) : List Block → Bool
  | [] => true
  | [_] => true
  | a :: b :: rest => (GetBlock bc a.parentHash == some b) && linked bc (b :: rest)

/-- The transactions returned to the pool when the listed blocks are
reverted, in revert order. -/
def returnedTxs : List Block → List Nat
  | [] => []
  | b :: rest => b.transactions ++ returnedTxs rest

/-- The height-index keys written when reindexing the listed blocks. -/
def segHeightKeys (seg : List Block) : List Bytes :=
  seg.map (fun b => fromUint64 b.height)

/-- The last block of a nonempty walk path, written head-first. -/
def lastOf (c : Block) : List Block → Block
  | [] => c
  | x :: rest => lastOf x rest

/-- The storage entries produced by reindexing the listed blocks in walk
order: the walk prepends one entry per block, so the last visited block's
entry ends up first. -/
def indexWrites : List Block → List (Bytes × Bytes)
  | [] => []
  | b :: rest => indexWrites rest ++ [(fromUint64 b.height, b.hash)]

/-- A storage extended by the reindex writes of the listed blocks. -/
def withIndexWrites (s : Storage) (seg : List Block) : Storage :=
  { s with data := indexWrites seg ++ s.data }

/-- Every block of the path whose parent is looked up during a walk (all but
the last element) has a parent hash that is not shaped like an 8-byte
height-index key, so reindex writes cannot shadow the lookups. -/
def linksOK : List Block → Bool
  | [] => true
  | [_] => true
  | a :: b :: rest => !(a.parentHash.length == 8) && linksOK (b :: rest)

/-! ## Concrete instances for witnesses and counterexamples -/

/-- Concrete block: genesis of the witness chain. -/
def wG : Block :=
  { hash := [1], parentHash := [0], height := 1, chainID := 1, timestamp := 0,
    transactions := [] }

/-- Concrete block at height 2 on the canonical witness branch. -/
def wB2 : Block :=
  { hash := [2], parentHash := [1], height := 2, chainID := 1, timestamp := 0,
    transactions := [20] }

/-- Concrete block at height 3 on the canonical witness branch. -/
def wB3 : Block :=
  { hash := [3], parentHash := [2], height := 3, chainID := 1, timestamp := 0,
    transactions := [30] }

/-- Concrete block at height 2 on the side branch. -/
def wB2s : Block :=
  { hash := [4], parentHash := [1], height := 2, chainID := 1, timestamp := 0,
    transactions := [40] }

/-- Concrete block at height 3 on the side branch. -/
def wB3s : Block :=
  { hash := [5], parentHash := [4], height := 3, chainID := 1, timestamp := 0,
    transactions := [50] }

/-- Concrete block at height 4 on the side branch. -/
def wB4s : Block :=
  { hash := [6], parentHash := [5], height := 4, chainID := 1, timestamp := 0,
    transactions := [60] }

/-- Witness storage: height index 1..3 along the canonical branch and the
head pointer. -/
def wSt : Storage :=
  { data := [(fromUint64 1, [1]), (fromUint64 2, [2]), (fromUint64 3, [3]), (Tail, [3])],
    failPut := [], failGet := [] }

/-- The main witness chain state: canonical branch G, B2, B3 (tail) with a
fork G, B2s, B3s, all cached. -/
def wBC : BlockChain :=
  { chainID := 1, genesis := { chainID := 1 }, genesisBlock := wG, tailBlock := wB3,
    cachedBlocks :=
      { cap := 1024,
        entries := [([1], wG), ([2], wB2), ([3], wB3), ([4], wB2s), ([5], wB3s)] },
    detachedTailBlocks := { cap := 64, entries := [] },
    storage := wSt, txPool := [] }

/-- Concrete block whose parent is absent from the store (for revert-failure
scenarios). -/
def wX3 : Block :=
  { hash := [3], parentHash := [2], height := 3, chainID := 1, timestamp := 0,
    transactions := [33] }

/-- Chain state whose tail has an unresolvable parent: the revert walk from
it must fail mid-way. -/
def wBCr : BlockChain :=
  { chainID := 1, genesis := { chainID := 1 }, genesisBlock := wG, tailBlock := wX3,
    cachedBlocks := { cap := 1024, entries := [([1], wG), ([3], wX3)] },
    detachedTailBlocks := { cap := 64, entries := [] },
    storage := { data := [(fromUint64 1, [1]), (fromUint64 3, [3]), (Tail, [3])],
                 failPut := [], failGet := [] },
    txPool := [] }

/-- The 8-byte height-index key of height 3; doubles as a block hash in the
reindex-failure scenario, so that the reindex write clobbers the parent
record mid-walk. -/
def kb3 : Bytes := fromUint64 3

/-- Concrete tail of the reindex-failure scenario. -/
def wT2 : Block :=
  { hash := [3], parentHash := [1], height := 2, chainID := 1, timestamp := 0,
    transactions := [] }

/-- Concrete block stored only on disk, keyed by an 8-byte hash equal to the
height-3 index key. -/
def wN2 : Block :=
  { hash := kb3, parentHash := [1], height := 2, chainID := 1, timestamp := 0,
    transactions := [] }

/-- Concrete new tail whose parent is wN2. -/
def wN3 : Block :=
  { hash := [5], parentHash := kb3, height := 3, chainID := 1, timestamp := 0,
    transactions := [] }

/-- Chain state for the reindex-failure scenario: the common-ancestor search
resolves wN3's parent from storage, but the reindex write at height 3
overwrites that very record, so the reindex walk then misses the parent. -/
def wBCx : BlockChain :=
  { chainID := 1, genesis := { chainID := 1 }, genesisBlock := wG, tailBlock := wT2,
    cachedBlocks := { cap := 1024, entries := [([1], wG), ([3], wT2), ([5], wN3)] },
    detachedTailBlocks := { cap := 64, entries := [] },
    storage := { data := [(fromUint64 1, [1]), (fromUint64 2, [3]),
                          (kb3, encodeBlock wN2), (Tail, [3])],
                 failPut := [], failGet := [] },
    txPool := [] }

/-- Chain state with a gap in the height index at height 2 (tail at
height 3), for the descendant-fetch failure witness. -/
def wBCg : BlockChain :=
  { chainID := 1, genesis := { chainID := 1 }, genesisBlock := wG, tailBlock := wB3,
    cachedBlocks := { cap := 1024, entries := [([1], wG), ([3], wB3)] },
    detachedTailBlocks := { cap := 64, entries := [] },
    storage := { data := [(fromUint64 1, [1]), (fromUint64 3, [3]), (Tail, [3])],
                 failPut := [], failGet := [] },
    txPool := [] }

/-- Chain state with an injected Get fault on the height-7 index key and a
corrupt block record under the key 7 7, for the lookup-miss counterexample. -/
def wBC5 : BlockChain :=
  { wBC with storage :=
      { data := ([7, 7], [250]) :: wSt.data, failPut := [], failGet := [fromUint64 7] } }

/-- Concrete block whose storage write is made to fail. -/
def wB8 : Block :=
  { hash := [8], parentHash := [3], height := 4, chainID := 1, timestamp := 0,
    transactions := [] }

/-- Chain state with an empty block cache and an injected Put fault on
wB8's hash, for the cache-vs-storage counterexample. -/
def wBC8 : BlockChain :=
  { wBC with cachedBlocks := { cap := 1024, entries := [] },
             storage := { wSt with failPut := [[8]] } }

/-- Concrete block unknown to the store, with an unknown parent. -/
def wOrph : Block :=
  { hash := [7], parentHash := [99], height := 5, chainID := 1, timestamp := 0,
    transactions := [70] }

/-- Concrete genesis block as persisted with chain id 1. -/
def wGen1 : Block :=
  { hash := GenesisHash, parentHash := [], height := 1, chainID := 1, timestamp := 0,
    transactions := [] }

/-- Storage holding only the persisted genesis with chain id 1. -/
def wStGen : Storage :=
  { data := [(GenesisHash, encodeBlock wGen1)], failPut := [], failGet := [] }

/-! ## Generic helper lemmas -/

theorem lookup_cons_ne {q k v : Bytes} {d : List (Bytes × Bytes)} (h : q ≠ k) :
    ((k, v) :: d).lookup q = d.lookup q := by
  have hb : (q == k) = false := beq_eq_false_iff_ne.mpr h
  simp [List.lookup, hb]

theorem lookup_cons_self {k v : Bytes} {d : List (Bytes × Bytes)} :
    ((k, v) :: d).lookup k = some v := by
  simp [List.lookup]

theorem lookup_mem {q : Bytes} {l : List (Bytes × Bytes)} {v : Bytes}
    (h : l.lookup q = some v) : q ∈ l.map (fun e => e.1) := by
  induction l with
  | nil => simp [List.lookup] at h
  | cons e rest ih =>
    rw [List.lookup] at h
    split at h
    · next heq => simp at heq; simp [heq]
    · simp [ih h]

theorem lookupB_mem {q : Bytes} {l : List (Bytes × Block)} {v : Block}
    (h : l.lookup q = some v) : q ∈ l.map (fun e => e.1) := by
  induction l with
  | nil => simp [List.lookup] at h
  | cons e rest ih =>
    rw [List.lookup] at h
    split at h
    · next heq => simp at heq; simp [heq]
    · simp [ih h]

theorem lookup_append_not_mem {q : Bytes} {pre d : List (Bytes × Bytes)}
    (h : q ∉ pre.map (fun e => e.1)) : (pre ++ d).lookup q = d.lookup q := by
  induction pre with
  | nil => rfl
  | cons e rest ih =>
    simp at h
    rcases e with ⟨k, v⟩
    have : q ≠ k := by simpa using h.1
    simpa [lookup_cons_ne this] using ih (by simpa using h.2)

/-! ## Storage lemmas -/

theorem put_ok_iff {s : Storage} {k v : Bytes} :
    s.put k v = .ok { s with data := (k, v) :: s.data } ↔ k ∉ s.failPut := by
  constructor
  · intro h hk
    simp [Storage.put, hk] at h
  · intro hk
    simp [Storage.put, hk]

theorem put_shape {s s1 : Storage} {k v : Bytes} (h : s.put k v = .ok s1) :
    s1 = { s with data := (k, v) :: s.data } := by
  by_cases hk : k ∈ s.failPut
  · simp [Storage.put, hk] at h
  · simp [Storage.put, hk] at h
    exact h.symm

theorem put_error {s : Storage} {k v : Bytes} {e : Err} (h : s.put k v = .error e) :
    e = .ioErr ∧ k ∈ s.failPut := by
  by_cases hk : k ∈ s.failPut
  · simp [Storage.put, hk] at h
    exact ⟨h.symm, hk⟩
  · simp [Storage.put, hk] at h

/-! ## GetBlock congruence lemmas -/

theorem getBlock_returnTransactions (bc : BlockChain) (x : Block) (h : Bytes) :
    GetBlock (returnTransactions bc x) h = GetBlock bc h := rfl

theorem linked_returnTransactions (bc : BlockChain) (x : Block) :
    ∀ l, linked (returnTransactions bc x) l = linked bc l := by
  intro l
  induction l with
  | nil => rfl
  | cons a t ih =>
    cases t with
    | nil => rfl
    | cons b rest =>
      rw [linked, linked,
        show GetBlock (returnTransactions bc x) a.parentHash = GetBlock bc a.parentHash from rfl,
        ih]

theorem getBlock_prepend (bc bc1 : BlockChain) (k v h : Bytes)
    (h1 : bc1.cachedBlocks = bc.cachedBlocks)
    (h2 : bc1.storage.data = (k, v) :: bc.storage.data)
    (h3 : bc1.storage.failGet = bc.storage.failGet)
    (hk : h ≠ k) :
    GetBlock bc1 h = GetBlock bc h := by
  rw [GetBlock, GetBlock, h1]
  cases hc : bc.cachedBlocks.get h with
  | some b => rfl
  | none =>
    have hload : LoadBlockFromStorage h bc1.storage = LoadBlockFromStorage h bc.storage := by
      rw [LoadBlockFromStorage, LoadBlockFromStorage]
      have hget : bc1.storage.get h = bc.storage.get h := by
        rw [Storage.get, Storage.get, h2, h3, lookup_cons_ne hk]
      rw [hget]
    rw [hload]

theorem linked_prepend (bc bc1 : BlockChain) (k v : Bytes) (hk : k.length = 8)
    (h1 : bc1.cachedBlocks = bc.cachedBlocks)
    (h2 : bc1.storage.data = (k, v) :: bc.storage.data)
    (h3 : bc1.storage.failGet = bc.storage.failGet) :
    ∀ l, linksOK l = true → linked bc1 l = linked bc l := by
  intro l
  induction l with
  | nil => intro _; rfl
  | cons a t ih =>
    intro hall
    cases t with
    | nil => rfl
    | cons b rest =>
      rw [linksOK, Bool.and_eq_true] at hall
      have ha : a.parentHash ≠ k := by
        intro hh
        have := hall.1
        rw [hh, hk] at this
        simp at this
      rw [linked, linked, getBlock_prepend bc bc1 k v a.parentHash h1 h2 h3 ha, ih hall.2]

/-! ## Revert-walk lemmas -/

theorem revertBlocks_self {bc : BlockChain} {frm cur : Block} (fuel : Nat)
    (h : cur.hash = frm.hash) : revertBlocks bc frm fuel cur = (bc, .ok ()) := by
  cases fuel with
  | zero => simp [revertBlocks, h]
  | succ f => simp [revertBlocks, h]

theorem revertBlocks_state (frm : Block) :
    ∀ (fuel : Nat) (bc : BlockChain) (cur : Block),
      ∃ t, (revertBlocks bc frm fuel cur).1 = { bc with txPool := t } := by
  intro fuel
  induction fuel with
  | zero =>
    intro bc cur
    by_cases h : cur.hash = frm.hash <;>
      exact ⟨bc.txPool, by simp [revertBlocks, h]⟩
  | succ f ih =>
    intro bc cur
    by_cases h : cur.hash = frm.hash
    · exact ⟨bc.txPool, by simp [revertBlocks, h]⟩
    · rw [revertBlocks]
      simp only [h, if_false]
      cases hp : GetBlock (returnTransactions bc cur) cur.parentHash with
      | some p =>
        simp only [hp]
        obtain ⟨t, ht⟩ := ih (returnTransactions bc cur) p
        exact ⟨t, ht⟩
      | none =>
        exact ⟨bc.txPool ++ cur.transactions, by simp [hp, returnTransactions]⟩

theorem revertBlocks_ok (frm : Block) :
    ∀ (path : List Block) (bc : BlockChain) (cur : Block) (fuel : Nat),
      path.length ≤ fuel →
      linked bc (cur :: (path ++ [frm])) = true →
      (cur :: path).all (fun x => !(x.hash == frm.hash)) = true →
      revertBlocks bc frm (fuel + 1) cur =
        ({ bc with txPool := bc.txPool ++ returnedTxs (cur :: path) }, .ok ()) := by
  intro path
  induction path with
  | nil =>
    intro bc cur fuel hfuel hlink hall
    simp only [List.all_cons, List.all_nil, Bool.and_true, Bool.not_eq_eq_eq_not,
      Bool.not_true, beq_eq_false_iff_ne] at hall
    simp only [List.nil_append, linked, Bool.and_eq_true, beq_iff_eq] at hlink
    rw [revertBlocks]
    simp only [hall, if_false]
    rw [getBlock_returnTransactions, hlink.1]
    show revertBlocks (returnTransactions bc cur) frm fuel frm = _
    rw [revertBlocks_self fuel rfl]
    simp [returnTransactions, returnedTxs]
  | cons p rest ih =>
    intro bc cur fuel hfuel hlink hall
    simp only [List.all_cons, Bool.and_eq_true, Bool.not_eq_eq_eq_not, Bool.not_true,
      beq_eq_false_iff_ne] at hall
    have hcur : cur.hash ≠ frm.hash := hall.1
    simp only [List.cons_append, linked, Bool.and_eq_true, beq_iff_eq] at hlink
    cases fuel with
    | zero => simp at hfuel
    | succ f =>
      rw [revertBlocks]
      simp only [hcur, if_false]
      rw [getBlock_returnTransactions, hlink.1]
      have hlink2 : linked (returnTransactions bc cur) (p :: (rest ++ [frm])) = true := by
        rw [linked_returnTransactions]
        exact hlink.2
      have hall2 : (p :: rest).all (fun x => !(x.hash == frm.hash)) = true := by
        simp [List.all_cons, hall.2.1, hall.2.2]
      have hf : rest.length ≤ f := by simp at hfuel; omega
      show revertBlocks (returnTransactions bc cur) frm (f + 1) p = _
      rw [ih (returnTransactions bc cur) p f hf hlink2 hall2]
      simp [returnTransactions, returnedTxs, List.append_assoc]

theorem revertBlocks_fail (frm : Block) :
    ∀ (path : List Block) (bc : BlockChain) (cur : Block) (fuel : Nat),
      path.length ≤ fuel →
      linked bc (cur :: path) = true →
      (cur :: path).all (fun x => !(x.hash == frm.hash)) = true →
      GetBlock bc (lastOf cur path).parentHash = none →
      revertBlocks bc frm (fuel + 1) cur =
        ({ bc with txPool := bc.txPool ++ returnedTxs (cur :: path) },
          .error .missingParentBlock) := by
  intro path
  induction path with
  | nil =>
    intro bc cur fuel hfuel hlink hall hmiss
    simp only [List.all_cons, List.all_nil, Bool.and_true, Bool.not_eq_eq_eq_not,
      Bool.not_true, beq_eq_false_iff_ne] at hall
    simp only [lastOf] at hmiss
    rw [revertBlocks]
    simp only [hall, if_false]
    rw [getBlock_returnTransactions, hmiss]
    simp [returnTransactions, returnedTxs]
  | cons p rest ih =>
    intro bc cur fuel hfuel hlink hall hmiss
    simp only [List.all_cons, Bool.and_eq_true, Bool.not_eq_eq_eq_not, Bool.not_true,
      beq_eq_false_iff_ne] at hall
    simp only [linked, Bool.and_eq_true, beq_iff_eq] at hlink
    simp only [lastOf] at hmiss
    cases fuel with
    | zero => simp at hfuel
    | succ f =>
      rw [revertBlocks]
      simp only [hall.1, if_false]
      rw [getBlock_returnTransactions, hlink.1]
      have hlink2 : linked (returnTransactions bc cur) (p :: rest) = true := by
        rw [linked_returnTransactions]; exact hlink.2
      have hall2 : (p :: rest).all (fun x => !(x.hash == frm.hash)) = true := by
        simp [List.all_cons, hall.2.1, hall.2.2]
      have hmiss2 : GetBlock (returnTransactions bc cur) (lastOf p rest).parentHash = none := by
        rw [getBlock_returnTransactions]; exact hmiss
      have hf : rest.length ≤ f := by simp at hfuel; omega
      show revertBlocks (returnTransactions bc cur) frm (f + 1) p = _
      rw [ih (returnTransactions bc cur) p f hf hlink2 hall2 hmiss2]
      simp [returnTransactions, returnedTxs, List.append_assoc]


/-! ## Reindex-walk lemmas -/

theorem fromUint64_length (n : Nat) : (fromUint64 n).length = 8 := by
  simp [fromUint64]

theorem buildIndex_self {bc : BlockChain} {frm cur : Block} (fuel : Nat)
    (h : cur.hash = frm.hash) : buildIndexByBlockHeight bc frm fuel cur = (bc, .ok ()) := by
  cases fuel with
  | zero => simp [buildIndexByBlockHeight, h]
  | succ f => simp [buildIndexByBlockHeight, h]

theorem buildIndex_step (bc : BlockChain) (frm cur : Block) (f : Nat) (st : Storage)
    (hne : cur.hash ≠ frm.hash)
    (hput : bc.storage.put (fromUint64 cur.height) cur.hash = .ok st) :
    buildIndexByBlockHeight bc frm (f + 1) cur =
      (match GetBlock { bc with storage := st } cur.parentHash with
       | some p => buildIndexByBlockHeight { bc with storage := st } frm f p
       | none => ({ bc with storage := st }, .error .missingParentBlock)) := by
  rw [buildIndexByBlockHeight]
  simp only [hne, if_false, hput]

theorem buildIndex_state (frm : Block) :
    ∀ (fuel : Nat) (bc : BlockChain) (cur : Block),
      ∃ pre,
        (buildIndexByBlockHeight bc frm fuel cur).1 =
          { bc with storage := { data := pre ++ bc.storage.data,
                                 failPut := bc.storage.failPut,
                                 failGet := bc.storage.failGet } } ∧
        ∀ e ∈ pre, (e : Bytes × Bytes).1.length = 8 := by
  intro fuel
  induction fuel with
  | zero =>
    intro bc cur
    refine ⟨[], ?_, by simp⟩
    by_cases h : cur.hash = frm.hash <;> simp [buildIndexByBlockHeight, h]
  | succ f ih =>
    intro bc cur
    by_cases h : cur.hash = frm.hash
    · exact ⟨[], by simp [buildIndexByBlockHeight, h], by simp⟩
    · cases hput : bc.storage.put (fromUint64 cur.height) cur.hash with
      | error e =>
        refine ⟨[], ?_, by simp⟩
        rw [buildIndexByBlockHeight]
        simp [h, hput]
      | ok st =>
        have hst := put_shape hput
        rw [buildIndex_step bc frm cur f st h hput]
        cases hp : GetBlock { bc with storage := st } cur.parentHash with
        | none =>
          refine ⟨[(fromUint64 cur.height, cur.hash)], ?_, ?_⟩
          · simp only [hp]
            rw [hst]
            rfl
          · intro e he
            simp at he
            simp [he, fromUint64_length]
        | some p =>
          simp only [hp]
          obtain ⟨pre, hpre, hlen⟩ := ih { bc with storage := st } p
          refine ⟨pre ++ [(fromUint64 cur.height, cur.hash)], ?_, ?_⟩
          · rw [hpre, hst]
            simp [List.append_assoc]
          · intro e he
            simp at he
            rcases he with he | he
            · exact hlen e (by simpa using he)
            · simp [he, fromUint64_length]

theorem buildIndex_ok (frm : Block) :
    ∀ (path : List Block) (bc : BlockChain) (cur : Block) (fuel : Nat),
      path.length ≤ fuel →
      linked bc (cur :: (path ++ [frm])) = true →
      linksOK ((cur :: path) ++ [frm]) = true →
      (cur :: path).all (fun x => !(x.hash == frm.hash)) = true →
      (cur :: path).all (fun x => decide (fromUint64 x.height ∉ bc.storage.failPut)) = true →
      buildIndexByBlockHeight bc frm (fuel + 1) cur =
        ({ bc with storage := withIndexWrites bc.storage (cur :: path) }, .ok ()) := by
  intro path
  induction path with
  | nil =>
    intro bc cur fuel hfuel hlink hlOK hall hput
    simp only [List.all_cons, List.all_nil, Bool.and_true, Bool.not_eq_eq_eq_not,
      Bool.not_true, beq_eq_false_iff_ne] at hall
    simp only [List.all_cons, List.all_nil, Bool.and_true, decide_eq_true_eq] at hput
    simp only [List.nil_append, linked, Bool.and_eq_true, beq_iff_eq] at hlink
    simp only [List.nil_append, linksOK, Bool.and_eq_true] at hlOK
    have hk8 : cur.parentHash ≠ fromUint64 cur.height := by
      intro hh
      have := hlOK.1
      rw [hh] at this
      simp [fromUint64_length] at this
    have hputok : bc.storage.put (fromUint64 cur.height) cur.hash =
        .ok { data := (fromUint64 cur.height, cur.hash) :: bc.storage.data,
              failPut := bc.storage.failPut, failGet := bc.storage.failGet } := by
      simp [Storage.put, hput]
    rw [buildIndex_step bc frm cur fuel _ hall hputok]
    have hgb := getBlock_prepend bc
      ({ bc with storage :=
          { data := (fromUint64 cur.height, cur.hash) :: bc.storage.data,
            failPut := bc.storage.failPut, failGet := bc.storage.failGet } })
      (fromUint64 cur.height) cur.hash cur.parentHash rfl rfl rfl hk8
    rw [hgb, hlink.1]
    show buildIndexByBlockHeight _ frm fuel frm = _
    rw [buildIndex_self fuel rfl]
    simp [withIndexWrites, indexWrites]
  | cons p rest ih =>
    intro bc cur fuel hfuel hlink hlOK hall hput
    simp only [List.all_cons, Bool.and_eq_true, Bool.not_eq_eq_eq_not, Bool.not_true,
      beq_eq_false_iff_ne] at hall
    simp only [List.all_cons, Bool.and_eq_true, decide_eq_true_eq] at hput
    simp only [List.cons_append, linked, Bool.and_eq_true, beq_iff_eq] at hlink
    simp only [List.cons_append, linksOK, Bool.and_eq_true] at hlOK
    cases fuel with
    | zero => simp at hfuel
    | succ f =>
      have hk8 : cur.parentHash ≠ fromUint64 cur.height := by
        intro hh
        have := hlOK.1
        rw [hh] at this
        simp [fromUint64_length] at this
      have hputok : bc.storage.put (fromUint64 cur.height) cur.hash =
          .ok { data := (fromUint64 cur.height, cur.hash) :: bc.storage.data,
                failPut := bc.storage.failPut, failGet := bc.storage.failGet } := by
        simp [Storage.put, hput.1]
      rw [buildIndex_step bc frm cur (f + 1) _ hall.1 hputok]
      have hgb := getBlock_prepend bc
        ({ bc with storage :=
            { data := (fromUint64 cur.height, cur.hash) :: bc.storage.data,
              failPut := bc.storage.failPut, failGet := bc.storage.failGet } })
        (fromUint64 cur.height) cur.hash cur.parentHash rfl rfl rfl hk8
      rw [hgb, hlink.1]
      show buildIndexByBlockHeight
        ({ bc with storage :=
            { data := (fromUint64 cur.height, cur.hash) :: bc.storage.data,
              failPut := bc.storage.failPut, failGet := bc.storage.failGet } }) frm (f + 1) p = _
      set bc1 : BlockChain :=
        { bc with storage :=
            { data := (fromUint64 cur.height, cur.hash) :: bc.storage.data,
              failPut := bc.storage.failPut, failGet := bc.storage.failGet } } with hbc1
      have hf : rest.length ≤ f := by simp at hfuel; omega
      have hlink2 : linked bc1 (p :: (rest ++ [frm])) = true := by
        rw [linked_prepend bc bc1 (fromUint64 cur.height) cur.hash (fromUint64_length _)
          rfl rfl rfl (p :: (rest ++ [frm])) (by simpa using hlOK.2)]
        exact hlink.2
      have hall2 : (p :: rest).all (fun x => !(x.hash == frm.hash)) = true := by
        simp [List.all_cons, hall.2.1, hall.2.2]
      have hput2 : (p :: rest).all
          (fun x => decide (fromUint64 x.height ∉ bc1.storage.failPut)) = true := by
        have hb : (p :: rest).all
            (fun x => decide (fromUint64 x.height ∉ bc.storage.failPut)) = true := by
          simp only [List.all_cons, Bool.and_eq_true, decide_eq_true_eq]
          exact ⟨hput.2.1, by simpa using hput.2.2⟩
        exact hb
      rw [ih bc1 p f hf hlink2 (by simpa using hlOK.2) hall2 hput2]
      simp [hbc1, withIndexWrites, indexWrites, List.append_assoc]

theorem buildIndex_fail (frm : Block) :
    ∀ (path : List Block) (bc : BlockChain) (cur : Block) (fuel : Nat),
      path.length ≤ fuel →
      linked bc (cur :: path) = true →
      linksOK (cur :: path) = true →
      (cur :: path).all (fun x => !(x.hash == frm.hash)) = true →
      (cur :: path).all (fun x => decide (fromUint64 x.height ∉ bc.storage.failPut)) = true →
      GetBlock { bc with storage := withIndexWrites bc.storage (cur :: path) }
        (lastOf cur path).parentHash = none →
      buildIndexByBlockHeight bc frm (fuel + 1) cur =
        ({ bc with storage := withIndexWrites bc.storage (cur :: path) },
          .error .missingParentBlock) := by
  intro path
  induction path with
  | nil =>
    intro bc cur fuel hfuel hlink hlOK hall hput hmiss
    simp only [List.all_cons, List.all_nil, Bool.and_true, Bool.not_eq_eq_eq_not,
      Bool.not_true, beq_eq_false_iff_ne] at hall
    simp only [List.all_cons, List.all_nil, Bool.and_true, decide_eq_true_eq] at hput
    simp only [lastOf] at hmiss
    have hputok : bc.storage.put (fromUint64 cur.height) cur.hash =
        .ok { data := (fromUint64 cur.height, cur.hash) :: bc.storage.data,
              failPut := bc.storage.failPut, failGet := bc.storage.failGet } := by
      simp [Storage.put, hput]
    rw [buildIndex_step bc frm cur fuel _ hall hputok]
    have hmiss2 : GetBlock
        ({ bc with storage :=
            { data := (fromUint64 cur.height, cur.hash) :: bc.storage.data,
              failPut := bc.storage.failPut, failGet := bc.storage.failGet } })
        cur.parentHash = none := by
      have heq : ({ bc with storage := withIndexWrites bc.storage [cur] } : BlockChain) =
          { bc with storage :=
            { data := (fromUint64 cur.height, cur.hash) :: bc.storage.data,
              failPut := bc.storage.failPut, failGet := bc.storage.failGet } } := by
        simp [withIndexWrites, indexWrites]
      rw [heq] at hmiss
      exact hmiss
    rw [hmiss2]
    simp [withIndexWrites, indexWrites]
  | cons p rest ih =>
    intro bc cur fuel hfuel hlink hlOK hall hput hmiss
    simp only [List.all_cons, Bool.and_eq_true, Bool.not_eq_eq_eq_not, Bool.not_true,
      beq_eq_false_iff_ne] at hall
    simp only [List.all_cons, Bool.and_eq_true, decide_eq_true_eq] at hput
    simp only [linked, Bool.and_eq_true, beq_iff_eq] at hlink
    rw [linksOK, Bool.and_eq_true] at hlOK
    simp only [lastOf] at hmiss
    cases fuel with
    | zero => simp at hfuel
    | succ f =>
      have hk8 : cur.parentHash ≠ fromUint64 cur.height := by
        intro hh
        have := hlOK.1
        rw [hh] at this
        simp [fromUint64_length] at this
      have hputok : bc.storage.put (fromUint64 cur.height) cur.hash =
          .ok { data := (fromUint64 cur.height, cur.hash) :: bc.storage.data,
                failPut := bc.storage.failPut, failGet := bc.storage.failGet } := by
        simp [Storage.put, hput.1]
      rw [buildIndex_step bc frm cur (f + 1) _ hall.1 hputok]
      have hgb := getBlock_prepend bc
        ({ bc with storage :=
            { data := (fromUint64 cur.height, cur.hash) :: bc.storage.data,
              failPut := bc.storage.failPut, failGet := bc.storage.failGet } })
        (fromUint64 cur.height) cur.hash cur.parentHash rfl rfl rfl hk8
      rw [hgb, hlink.1]
      show buildIndexByBlockHeight
        ({ bc with storage :=
            { data := (fromUint64 cur.height, cur.hash) :: bc.storage.data,
              failPut := bc.storage.failPut, failGet := bc.storage.failGet } }) frm (f + 1) p = _
      set bc1 : BlockChain :=
        { bc with storage :=
            { data := (fromUint64 cur.height, cur.hash) :: bc.storage.data,
              failPut := bc.storage.failPut, failGet := bc.storage.failGet } } with hbc1
      have hf : rest.length ≤ f := by simp at hfuel; omega
      have hlink2 : linked bc1 (p :: rest) = true := by
        rw [linked_prepend bc bc1 (fromUint64 cur.height) cur.hash (fromUint64_length _)
          rfl rfl rfl (p :: rest) hlOK.2]
        exact hlink.2
      have hall2 : (p :: rest).all (fun x => !(x.hash == frm.hash)) = true := by
        simp [List.all_cons, hall.2.1, hall.2.2]
      have hput2 : (p :: rest).all
          (fun x => decide (fromUint64 x.height ∉ bc1.storage.failPut)) = true := by
        have hb : (p :: rest).all
            (fun x => decide (fromUint64 x.height ∉ bc.storage.failPut)) = true := by
          simp only [List.all_cons, Bool.and_eq_true, decide_eq_true_eq]
          exact ⟨hput.2.1, by simpa using hput.2.2⟩
        exact hb
      have hmiss2 : GetBlock { bc1 with storage := withIndexWrites bc1.storage (p :: rest) }
          (lastOf p rest).parentHash = none := by
        have heq : ({ bc1 with storage := withIndexWrites bc1.storage (p :: rest) } : BlockChain) =
            { bc with storage := withIndexWrites bc.storage (cur :: p :: rest) } := by
          simp [hbc1, withIndexWrites, indexWrites, List.append_assoc]
        rw [heq]
        exact hmiss
      rw [ih bc1 p f hf hlink2 hlOK.2 hall2 hput2 hmiss2]
      simp [hbc1, withIndexWrites, indexWrites, List.append_assoc]

/-! ## SetTailBlock assembly helpers -/

theorem getBlock_txPool (bc : BlockChain) (t : List Nat) (h : Bytes) :
    GetBlock { bc with txPool := t } h = GetBlock bc h := rfl

theorem linked_txPool (bc : BlockChain) (t : List Nat) :
    ∀ l, linked { bc with txPool := t } l = linked bc l := by
  intro l
  induction l with
  | nil => rfl
  | cons a u ih =>
    cases u with
    | nil => rfl
    | cons b rest =>
      rw [linked, linked,
        show GetBlock { bc with txPool := t } a.parentHash = GetBlock bc a.parentHash from rfl,
        ih]

theorem setTail_fca_error (bc : BlockChain) (nt : Block) (e : Err)
    (h : FindCommonAncestorWithTail bc nt = .error e) :
    SetTailBlock bc nt = (bc, .error e) := by
  rw [SetTailBlock]
  simp only [h]

theorem setTail_step (bc : BlockChain) (nt ancestor : Block)
    (h : FindCommonAncestorWithTail bc nt = .ok ancestor) :
    SetTailBlock bc nt =
      (match buildIndexByBlockHeight
          (revertBlocks bc ancestor (bc.tailBlock.height + 1) bc.tailBlock).1
          ancestor (nt.height + 1) nt with
       | (bc2, .error e) => (bc2, .error e)
       | (bc2, .ok _) =>
         match storeTailToStorage bc2 nt with
         | .error e => (bc2, .error e)
         | .ok st => ({ bc2 with storage := st, tailBlock := nt }, .ok ())) := by
  rw [SetTailBlock]
  simp only [h]

theorem indexWrites_keys (seg : List Block) :
    ∀ x, x ∈ (indexWrites seg).map (fun e => e.1) ↔ x ∈ segHeightKeys seg := by
  intro x
  induction seg with
  | nil => simp [indexWrites, segHeightKeys]
  | cons c rest ih =>
    simp only [indexWrites, segHeightKeys, List.map_append, List.map_cons, List.map_nil,
      List.mem_append, List.mem_cons, List.mem_singleton]
    constructor
    · intro h
      rcases h with h | h
      · exact Or.inr (ih.mp (by simpa [segHeightKeys] using h))
      · simp at h
        exact Or.inl h
    · intro h
      rcases h with h | h
      · exact Or.inr (by simp [h])
      · exact Or.inl (by simpa [segHeightKeys] using ih.mpr h)

theorem lookup_indexWrites :
    ∀ (seg : List Block), (segHeightKeys seg).Nodup →
      ∀ b ∈ seg, ∀ (d : List (Bytes × Bytes)),
        (indexWrites seg ++ d).lookup (fromUint64 b.height) = some b.hash := by
  intro seg
  induction seg with
  | nil => intro _ b hb; simp at hb
  | cons c rest ih =>
    intro hnd b hb d
    simp only [segHeightKeys, List.map_cons, List.nodup_cons] at hnd
    rcases List.mem_cons.mp hb with hbc | hbr
    · subst hbc
      have hnotpre : fromUint64 b.height ∉ (indexWrites rest).map (fun e => e.1) := by
        intro hmem
        exact hnd.1 (by simpa [segHeightKeys] using (indexWrites_keys rest (fromUint64 b.height)).mp hmem)
      have : indexWrites (b :: rest) ++ d =
          indexWrites rest ++ ((fromUint64 b.height, b.hash) :: d) := by
        simp [indexWrites, List.append_assoc]
      rw [this, lookup_append_not_mem hnotpre, lookup_cons_self]
    · have : indexWrites (c :: rest) ++ d =
          indexWrites rest ++ ((fromUint64 c.height, c.hash) :: d) := by
        simp [indexWrites, List.append_assoc]
      rw [this]
      exact ih hnd.2 b hbr ((fromUint64 c.height, c.hash) :: d)

theorem setTail_index_error (bc : BlockChain) (nt ancestor : Block) (bc2 : BlockChain) (e : Err)
    (hfca : FindCommonAncestorWithTail bc nt = .ok ancestor)
    (hbi : buildIndexByBlockHeight
        (revertBlocks bc ancestor (bc.tailBlock.height + 1) bc.tailBlock).1
        ancestor (nt.height + 1) nt = (bc2, .error e)) :
    SetTailBlock bc nt = (bc2, .error e) := by
  rw [setTail_step bc nt ancestor hfca, hbi]

theorem setTail_persist_error (bc : BlockChain) (nt ancestor : Block) (bc2 : BlockChain)
    (u : Unit) (e : Err)
    (hfca : FindCommonAncestorWithTail bc nt = .ok ancestor)
    (hbi : buildIndexByBlockHeight
        (revertBlocks bc ancestor (bc.tailBlock.height + 1) bc.tailBlock).1
        ancestor (nt.height + 1) nt = (bc2, .ok u))
    (hst : storeTailToStorage bc2 nt = .error e) :
    SetTailBlock bc nt = (bc2, .error e) := by
  rw [setTail_step bc nt ancestor hfca, hbi]
  show ((match storeTailToStorage bc2 nt with
         | .error e => (bc2, .error e)
         | .ok st => ({ bc2 with storage := st, tailBlock := nt }, .ok ())) :
        BlockChain × Except Err Unit) = _
  rw [hst]

theorem setTail_all_ok (bc : BlockChain) (nt ancestor : Block) (bc2 : BlockChain)
    (u : Unit) (st : Storage)
    (hfca : FindCommonAncestorWithTail bc nt = .ok ancestor)
    (hbi : buildIndexByBlockHeight
        (revertBlocks bc ancestor (bc.tailBlock.height + 1) bc.tailBlock).1
        ancestor (nt.height + 1) nt = (bc2, .ok u))
    (hst : storeTailToStorage bc2 nt = .ok st) :
    SetTailBlock bc nt = ({ bc2 with storage := st, tailBlock := nt }, .ok ()) := by
  rw [setTail_step bc nt ancestor hfca, hbi]
  show ((match storeTailToStorage bc2 nt with
         | .error e => (bc2, .error e)
         | .ok st => ({ bc2 with storage := st, tailBlock := nt }, .ok ())) :
        BlockChain × Except Err Unit) = _
  rw [hst]

theorem setTail_success_scenario (bc : BlockChain) (nt ancestor : Block) (path : List Block)
    (hfca : FindCommonAncestorWithTail bc nt = .ok ancestor)
    (hlen : path.length ≤ nt.height)
    (hlink : linked bc (nt :: (path ++ [ancestor])) = true)
    (hlok : linksOK ((nt :: path) ++ [ancestor]) = true)
    (hnotanc : (nt :: path).all (fun x => !(x.hash == ancestor.hash)) = true)
    (hputs : (nt :: path).all (fun x => decide (fromUint64 x.height ∉ bc.storage.failPut)) = true)
    (htail : Tail ∉ bc.storage.failPut) :
    ∃ t, SetTailBlock bc nt =
      ({ bc with
          txPool := t,
          storage := { data := (Tail, nt.hash) :: (indexWrites (nt :: path) ++ bc.storage.data),
                       failPut := bc.storage.failPut, failGet := bc.storage.failGet },
          tailBlock := nt }, .ok ()) := by
  obtain ⟨t, ht⟩ := revertBlocks_state ancestor (bc.tailBlock.height + 1) bc bc.tailBlock
  refine ⟨t, ?_⟩
  have hlink2 : linked { bc with txPool := t } (nt :: (path ++ [ancestor])) = true := by
    rw [linked_txPool]; exact hlink
  have hputs2 : (nt :: path).all
      (fun x => decide (fromUint64 x.height ∉
        ({ bc with txPool := t } : BlockChain).storage.failPut)) = true :=
    hputs
  have hbi := buildIndex_ok ancestor path { bc with txPool := t } nt nt.height
    hlen hlink2 hlok hnotanc hputs2
  have hbi2 : buildIndexByBlockHeight
      (revertBlocks bc ancestor (bc.tailBlock.height + 1) bc.tailBlock).1
      ancestor (nt.height + 1) nt =
      ({ chainID := bc.chainID, genesis := bc.genesis, genesisBlock := bc.genesisBlock,
         tailBlock := bc.tailBlock, cachedBlocks := bc.cachedBlocks,
         detachedTailBlocks := bc.detachedTailBlocks,
         storage := withIndexWrites bc.storage (nt :: path), txPool := t },
        .ok ()) := by
    rw [ht]
    exact hbi
  have hstore : storeTailToStorage
      ({ chainID := bc.chainID, genesis := bc.genesis, genesisBlock := bc.genesisBlock,
         tailBlock := bc.tailBlock, cachedBlocks := bc.cachedBlocks,
         detachedTailBlocks := bc.detachedTailBlocks,
         storage := withIndexWrites bc.storage (nt :: path), txPool := t } : BlockChain)
      nt =
      .ok { data := (Tail, nt.hash) :: (indexWrites (nt :: path) ++ bc.storage.data),
            failPut := bc.storage.failPut, failGet := bc.storage.failGet } := by
    show Storage.put _ Tail nt.hash = _
    rw [Storage.put]
    simp [withIndexWrites, htail]
  rw [setTail_all_ok bc nt ancestor _ () _ hfca hbi2 hstore]

theorem fromUint64_ne_Tail (n : Nat) : fromUint64 n ≠ Tail := by
  intro h
  have := congrArg List.length h
  simp [fromUint64, Tail] at this

theorem setTail_error_tail (bc : BlockChain) (nt : Block) (e : Err)
    (h : (SetTailBlock bc nt).2 = .error e) :
    (SetTailBlock bc nt).1.tailBlock = bc.tailBlock := by
  cases hfca : FindCommonAncestorWithTail bc nt with
  | error e2 => rw [setTail_fca_error bc nt e2 hfca]
  | ok ancestor =>
    rcases hbi : buildIndexByBlockHeight
        (revertBlocks bc ancestor (bc.tailBlock.height + 1) bc.tailBlock).1
        ancestor (nt.height + 1) nt with ⟨bc2, r⟩
    obtain ⟨t, ht⟩ := revertBlocks_state ancestor (bc.tailBlock.height + 1) bc bc.tailBlock
    obtain ⟨pre, hpre, hlen⟩ := buildIndex_state ancestor (nt.height + 1)
      (revertBlocks bc ancestor (bc.tailBlock.height + 1) bc.tailBlock).1 nt
    rw [hbi] at hpre
    simp only at hpre
    have hb2 : bc2.tailBlock = bc.tailBlock := by
      rw [hpre, ht]
    cases r with
    | error e2 =>
      rw [setTail_index_error bc nt ancestor bc2 e2 hfca hbi]
      exact hb2
    | ok u =>
      cases hst : storeTailToStorage bc2 nt with
      | error e2 =>
        rw [setTail_persist_error bc nt ancestor bc2 u e2 hfca hbi hst]
        exact hb2
      | ok st =>
        rw [setTail_all_ok bc nt ancestor bc2 u st hfca hbi hst] at h
        simp at h

theorem setTail_ok_tail (bc : BlockChain) (nt : Block)
    (h : (SetTailBlock bc nt).2 = .ok ()) :
    (SetTailBlock bc nt).1.tailBlock = nt := by
  cases hfca : FindCommonAncestorWithTail bc nt with
  | error e2 =>
    rw [setTail_fca_error bc nt e2 hfca] at h
    simp at h
  | ok ancestor =>
    rcases hbi : buildIndexByBlockHeight
        (revertBlocks bc ancestor (bc.tailBlock.height + 1) bc.tailBlock).1
        ancestor (nt.height + 1) nt with ⟨bc2, r⟩
    cases r with
    | error e2 =>
      rw [setTail_index_error bc nt ancestor bc2 e2 hfca hbi] at h
      simp at h
    | ok u =>
      cases hst : storeTailToStorage bc2 nt with
      | error e2 =>
        rw [setTail_persist_error bc nt ancestor bc2 u e2 hfca hbi hst] at h
        simp at h
      | ok st =>
        rw [setTail_all_ok bc nt ancestor bc2 u st hfca hbi hst]

/-! ## Claim theorems -/

/-- Claim C1: for every call SetTailBlock(newHead), a failure of the
common-ancestor search is returned as that very error with the chain state
untouched; any failing call leaves the in-memory head (tailBlock) unchanged;
a successful call sets the in-memory head to newHead; and on a successful
call whose reindex segment is the path from newHead down to the common
ancestor (exclusive), the height index maps each segment height to that
segment block's hash. -/
theorem setTailBlock_head_atomicity :
    (∀ (bc : BlockChain) (nt : Block) (e : Err),
        FindCommonAncestorWithTail bc nt = .error e → SetTailBlock bc nt = (bc, .error e)) ∧
    (∀ (bc : BlockChain) (nt : Block) (e : Err),
        (SetTailBlock bc nt).2 = .error e → (SetTailBlock bc nt).1.tailBlock = bc.tailBlock) ∧
    (∀ (bc : BlockChain) (nt : Block),
        (SetTailBlock bc nt).2 = .ok () → (SetTailBlock bc nt).1.tailBlock = nt) ∧
    (∀ (bc : BlockChain) (nt ancestor : Block) (path : List Block),
        FindCommonAncestorWithTail bc nt = .ok ancestor →
        path.length ≤ nt.height →
        linked bc (nt :: (path ++ [ancestor])) = true →
        linksOK ((nt :: path) ++ [ancestor]) = true →
        (nt :: path).all (fun x => !(x.hash == ancestor.hash)) = true →
        (nt :: path).all (fun x => decide (fromUint64 x.height ∉ bc.storage.failPut)) = true →
        Tail ∉ bc.storage.failPut →
        (segHeightKeys (nt :: path)).Nodup →
        (SetTailBlock bc nt).2 = .ok () ∧
        (SetTailBlock bc nt).1.tailBlock = nt ∧
        ∀ b ∈ (nt :: path),
          (SetTailBlock bc nt).1.storage.data.lookup (fromUint64 b.height) = some b.hash) := by
  refine ⟨setTail_fca_error, setTail_error_tail, setTail_ok_tail, ?_⟩
  intro bc nt ancestor path hfca hlen hlink hlok hnotanc hputs htail hnd
  obtain ⟨t, heq⟩ := setTail_success_scenario bc nt ancestor path
    hfca hlen hlink hlok hnotanc hputs htail
  rw [heq]
  refine ⟨rfl, rfl, ?_⟩
  intro b hb
  show ((Tail, nt.hash) :: (indexWrites (nt :: path) ++ bc.storage.data)).lookup
    (fromUint64 b.height) = some b.hash
  rw [lookup_cons_ne (fromUint64_ne_Tail b.height)]
  exact lookup_indexWrites (nt :: path) hnd b hb bc.storage.data

/-- Witness for C1 at concrete inputs: a missing-parent target propagates the
search error and keeps the head; a successful reorg onto the side branch
commits the new head and writes its height-index segment. -/
theorem setTailBlock_head_atomicity_witness :
    (FindCommonAncestorWithTail wBC wOrph = .error .missingParentBlock ∧
      SetTailBlock wBC wOrph = (wBC, .error .missingParentBlock) ∧
      (SetTailBlock wBC wOrph).1.tailBlock = wBC.tailBlock) ∧
    ((SetTailBlock wBC wB3s).2 = .ok () ∧
      (SetTailBlock wBC wB3s).1.tailBlock = wB3s ∧
      ∀ b ∈ ([wB3s, wB2s] : List Block),
        (SetTailBlock wBC wB3s).1.storage.data.lookup (fromUint64 b.height) = some b.hash) :=
  ⟨⟨rfl,
    setTailBlock_head_atomicity.1 wBC wOrph .missingParentBlock rfl,
    setTailBlock_head_atomicity.2.1 wBC wOrph .missingParentBlock (by rfl)⟩,
   ⟨(setTailBlock_head_atomicity.2.2.2 wBC wB3s wG [wB2s] rfl (by decide) (by decide)
       (by decide) (by decide) (by decide) (by decide) (by decide)).1,
    (setTailBlock_head_atomicity.2.2.2 wBC wB3s wG [wB2s] rfl (by decide) (by decide)
       (by decide) (by decide) (by decide) (by decide) (by decide)).2.1,
    (setTailBlock_head_atomicity.2.2.2 wBC wB3s wG [wB2s] rfl (by decide) (by decide)
       (by decide) (by decide) (by decide) (by decide) (by decide)).2.2⟩⟩

/-- The reindex-failure scenario inside SetTailBlock: if, after the revert
phase, the reindex walk visits the listed blocks (writing their height-index
entries) and then misses a parent, SetTailBlock returns MissingParentBlock,
the in-memory head and the persisted head pointer are unchanged, and the
entries already written remain. -/
theorem setTail_reindex_fail_scenario (bc : BlockChain) (nt ancestor : Block)
    (path : List Block)
    (hfca : FindCommonAncestorWithTail bc nt = .ok ancestor)
    (hlen : path.length ≤ nt.height)
    (hlink : linked bc (nt :: path) = true)
    (hlok : linksOK (nt :: path) = true)
    (hnotanc : (nt :: path).all (fun x => !(x.hash == ancestor.hash)) = true)
    (hputs : (nt :: path).all (fun x => decide (fromUint64 x.height ∉ bc.storage.failPut)) = true)
    (hmiss : GetBlock { bc with storage := withIndexWrites bc.storage (nt :: path) }
        (lastOf nt path).parentHash = none) :
    ∃ t, SetTailBlock bc nt =
      ({ bc with
          txPool := t,
          storage := { data := indexWrites (nt :: path) ++ bc.storage.data,
                       failPut := bc.storage.failPut, failGet := bc.storage.failGet } },
        .error .missingParentBlock) := by
  obtain ⟨t, ht⟩ := revertBlocks_state ancestor (bc.tailBlock.height + 1) bc bc.tailBlock
  refine ⟨t, ?_⟩
  have hlink2 : linked { bc with txPool := t } (nt :: path) = true := by
    rw [linked_txPool]; exact hlink
  have hputs2 : (nt :: path).all
      (fun x => decide (fromUint64 x.height ∉
        ({ bc with txPool := t } : BlockChain).storage.failPut)) = true := hputs
  have hmiss2 : GetBlock
      { ({ bc with txPool := t } : BlockChain) with
          storage := withIndexWrites ({ bc with txPool := t } : BlockChain).storage (nt :: path) }
      (lastOf nt path).parentHash = none := hmiss
  have hbf := buildIndex_fail ancestor path { bc with txPool := t } nt nt.height
    hlen hlink2 hlok hnotanc hputs2 hmiss2
  have hbi2 : buildIndexByBlockHeight
      (revertBlocks bc ancestor (bc.tailBlock.height + 1) bc.tailBlock).1
      ancestor (nt.height + 1) nt =
      ({ chainID := bc.chainID, genesis := bc.genesis, genesisBlock := bc.genesisBlock,
         tailBlock := bc.tailBlock, cachedBlocks := bc.cachedBlocks,
         detachedTailBlocks := bc.detachedTailBlocks,
         storage := { data := indexWrites (nt :: path) ++ bc.storage.data,
                      failPut := bc.storage.failPut, failGet := bc.storage.failGet },
         txPool := t }, .error .missingParentBlock) := by
    rw [ht]
    exact hbf
  rw [setTail_index_error bc nt ancestor _ .missingParentBlock hfca hbi2]

/-- Claim C3: during SetTailBlock the reindex phase writes heightIndex of
B.height to B.hash for exactly the blocks strictly between the common
ancestor (exclusive) and the new head (inclusive), walking parent pointers
from the new head — entries at other heights are untouched; a parent miss
during that walk makes SetTailBlock return MissingParentBlock with the
persisted head pointer and the in-memory head unchanged, while the entries
already written are not rolled back. -/
theorem setTailBlock_reindex_exact :
    (∀ (bc : BlockChain) (nt ancestor : Block) (path : List Block),
        FindCommonAncestorWithTail bc nt = .ok ancestor →
        path.length ≤ nt.height →
        linked bc (nt :: (path ++ [ancestor])) = true →
        linksOK ((nt :: path) ++ [ancestor]) = true →
        (nt :: path).all (fun x => !(x.hash == ancestor.hash)) = true →
        (nt :: path).all (fun x => decide (fromUint64 x.height ∉ bc.storage.failPut)) = true →
        Tail ∉ bc.storage.failPut →
        (segHeightKeys (nt :: path)).Nodup →
        (∀ b ∈ (nt :: path),
          (SetTailBlock bc nt).1.storage.data.lookup (fromUint64 b.height) = some b.hash) ∧
        (∀ hh : Nat, fromUint64 hh ∉ segHeightKeys (nt :: path) →
          (SetTailBlock bc nt).1.storage.data.lookup (fromUint64 hh) =
            bc.storage.data.lookup (fromUint64 hh))) ∧
    (∀ (bc : BlockChain) (nt ancestor : Block) (path : List Block),
        FindCommonAncestorWithTail bc nt = .ok ancestor →
        path.length ≤ nt.height →
        linked bc (nt :: path) = true →
        linksOK (nt :: path) = true →
        (nt :: path).all (fun x => !(x.hash == ancestor.hash)) = true →
        (nt :: path).all (fun x => decide (fromUint64 x.height ∉ bc.storage.failPut)) = true →
        GetBlock { bc with storage := withIndexWrites bc.storage (nt :: path) }
          (lastOf nt path).parentHash = none →
        (SetTailBlock bc nt).2 = .error .missingParentBlock ∧
        (SetTailBlock bc nt).1.tailBlock = bc.tailBlock ∧
        (SetTailBlock bc nt).1.storage.data.lookup Tail = bc.storage.data.lookup Tail ∧
        ((segHeightKeys (nt :: path)).Nodup →
          ∀ b ∈ (nt :: path),
            (SetTailBlock bc nt).1.storage.data.lookup (fromUint64 b.height) = some b.hash)) := by
  constructor
  · intro bc nt ancestor path hfca hlen hlink hlok hnotanc hputs htail hnd
    obtain ⟨t, heq⟩ := setTail_success_scenario bc nt ancestor path
      hfca hlen hlink hlok hnotanc hputs htail
    rw [heq]
    constructor
    · intro b hb
      show ((Tail, nt.hash) :: (indexWrites (nt :: path) ++ bc.storage.data)).lookup
        (fromUint64 b.height) = some b.hash
      rw [lookup_cons_ne (fromUint64_ne_Tail b.height)]
      exact lookup_indexWrites (nt :: path) hnd b hb bc.storage.data
    · intro hh hout
      show ((Tail, nt.hash) :: (indexWrites (nt :: path) ++ bc.storage.data)).lookup
        (fromUint64 hh) = bc.storage.data.lookup (fromUint64 hh)
      rw [lookup_cons_ne (fromUint64_ne_Tail hh)]
      refine lookup_append_not_mem ?_
      intro hmem
      exact hout ((indexWrites_keys (nt :: path) (fromUint64 hh)).mp hmem)
  · intro bc nt ancestor path hfca hlen hlink hlok hnotanc hputs hmiss
    obtain ⟨t, heq⟩ := setTail_reindex_fail_scenario bc nt ancestor path
      hfca hlen hlink hlok hnotanc hputs hmiss
    rw [heq]
    refine ⟨rfl, rfl, ?_, ?_⟩
    · show (indexWrites (nt :: path) ++ bc.storage.data).lookup Tail =
        bc.storage.data.lookup Tail
      refine lookup_append_not_mem ?_
      intro hmem
      have := (indexWrites_keys (nt :: path) Tail).mp hmem
      simp only [segHeightKeys, List.mem_map] at this
      obtain ⟨b, _, hbeq⟩ := this
      exact fromUint64_ne_Tail b.height hbeq
    · intro hnd b hb
      exact lookup_indexWrites (nt :: path) hnd b hb bc.storage.data

/-- Witness for C3 at concrete inputs: the successful reorg writes exactly
the side-branch entries, and the clobbered-parent scenario returns
MissingParentBlock with the head pointer untouched and the height-3 entry
already written. -/
theorem setTailBlock_reindex_exact_witness :
    ((∀ b ∈ ([wB3s, wB2s] : List Block),
        (SetTailBlock wBC wB3s).1.storage.data.lookup (fromUint64 b.height) = some b.hash) ∧
      (∀ hh : Nat, fromUint64 hh ∉ segHeightKeys [wB3s, wB2s] →
        (SetTailBlock wBC wB3s).1.storage.data.lookup (fromUint64 hh) =
          wBC.storage.data.lookup (fromUint64 hh))) ∧
    ((SetTailBlock wBCx wN3).2 = .error .missingParentBlock ∧
      (SetTailBlock wBCx wN3).1.tailBlock = wBCx.tailBlock ∧
      (SetTailBlock wBCx wN3).1.storage.data.lookup Tail = wBCx.storage.data.lookup Tail ∧
      ((segHeightKeys [wN3]).Nodup →
        ∀ b ∈ ([wN3] : List Block),
          (SetTailBlock wBCx wN3).1.storage.data.lookup (fromUint64 b.height) = some b.hash)) :=
  ⟨setTailBlock_reindex_exact.1 wBC wB3s wG [wB2s] rfl (by decide) (by decide) (by decide)
      (by decide) (by decide) (by decide) (by decide),
   setTailBlock_reindex_exact.2 wBCx wN3 wG [] rfl (by decide) (by decide) (by decide)
      (by decide) (by decide) rfl⟩

theorem setTail_txPool (bc : BlockChain) (nt ancestor : Block)
    (hfca : FindCommonAncestorWithTail bc nt = .ok ancestor) :
    (SetTailBlock bc nt).1.txPool =
      (revertBlocks bc ancestor (bc.tailBlock.height + 1) bc.tailBlock).1.txPool := by
  rcases hbi : buildIndexByBlockHeight
      (revertBlocks bc ancestor (bc.tailBlock.height + 1) bc.tailBlock).1
      ancestor (nt.height + 1) nt with ⟨bc2, r⟩
  obtain ⟨pre, hpre, hlen⟩ := buildIndex_state ancestor (nt.height + 1)
    (revertBlocks bc ancestor (bc.tailBlock.height + 1) bc.tailBlock).1 nt
  rw [hbi] at hpre
  simp only at hpre
  have h2 : bc2.txPool =
      (revertBlocks bc ancestor (bc.tailBlock.height + 1) bc.tailBlock).1.txPool := by
    rw [hpre]
  cases r with
  | error e =>
    rw [setTail_index_error bc nt ancestor bc2 e hfca hbi]
    exact h2
  | ok u =>
    cases hst : storeTailToStorage bc2 nt with
    | error e =>
      rw [setTail_persist_error bc nt ancestor bc2 u e hfca hbi hst]
      exact h2
    | ok st =>
      rw [setTail_all_ok bc nt ancestor bc2 u st hfca hbi hst]
      exact h2

/-- The revert-failure scenario inside SetTailBlock: the common ancestor was
found through the fast path (it is the new head itself), the revert walk
visits the listed blocks and then misses a parent; SetTailBlock nevertheless
completes: the reindex phase is empty, the head pointer is persisted, and the
transactions of the visited blocks stay returned. -/
theorem setTail_revert_fail_scenario (bc : BlockChain) (nt ancestor : Block)
    (rpath : List Block)
    (hfca : FindCommonAncestorWithTail bc nt = .ok ancestor)
    (heq : nt.hash = ancestor.hash)
    (hrlen : rpath.length ≤ bc.tailBlock.height)
    (hrlink : linked bc (bc.tailBlock :: rpath) = true)
    (hrnot : (bc.tailBlock :: rpath).all (fun x => !(x.hash == ancestor.hash)) = true)
    (hrmiss : GetBlock bc (lastOf bc.tailBlock rpath).parentHash = none)
    (htail : Tail ∉ bc.storage.failPut) :
    SetTailBlock bc nt =
      ({ bc with
          txPool := bc.txPool ++ returnedTxs (bc.tailBlock :: rpath),
          storage := { data := (Tail, nt.hash) :: bc.storage.data,
                       failPut := bc.storage.failPut, failGet := bc.storage.failGet },
          tailBlock := nt }, .ok ()) := by
  have hrev := revertBlocks_fail ancestor rpath bc bc.tailBlock bc.tailBlock.height
    hrlen hrlink hrnot hrmiss
  have hbi2 : buildIndexByBlockHeight
      (revertBlocks bc ancestor (bc.tailBlock.height + 1) bc.tailBlock).1
      ancestor (nt.height + 1) nt =
      (({ bc with txPool := bc.txPool ++ returnedTxs (bc.tailBlock :: rpath) } : BlockChain),
        .ok ()) := by
    rw [hrev]
    exact buildIndex_self (nt.height + 1) heq
  have hstore : storeTailToStorage
      ({ bc with txPool := bc.txPool ++ returnedTxs (bc.tailBlock :: rpath) } : BlockChain)
      nt =
      .ok { data := (Tail, nt.hash) :: bc.storage.data,
            failPut := bc.storage.failPut, failGet := bc.storage.failGet } := by
    show Storage.put _ Tail nt.hash = _
    rw [Storage.put]
    simp [htail]
  rw [setTail_all_ok bc nt ancestor _ () _ hfca hbi2 hstore]

/-- Claim C4: during SetTailBlock the revert phase returns to the pool the
transactions of exactly the blocks strictly between the common ancestor
(exclusive) and the old head (inclusive), walking parent pointers from the
old head, whatever the later phases do; and when the revert walk misses a
parent mid-way, the error is suppressed and SetTailBlock continues with the
reindex phase as if the revert had completed, returning success. -/
theorem revertPhase_exact_and_suppressed :
    (∀ (bc : BlockChain) (nt ancestor : Block) (path : List Block),
        FindCommonAncestorWithTail bc nt = .ok ancestor →
        path.length ≤ bc.tailBlock.height →
        linked bc (bc.tailBlock :: (path ++ [ancestor])) = true →
        (bc.tailBlock :: path).all (fun x => !(x.hash == ancestor.hash)) = true →
        (SetTailBlock bc nt).1.txPool = bc.txPool ++ returnedTxs (bc.tailBlock :: path)) ∧
    (∀ (bc : BlockChain) (nt ancestor : Block) (rpath : List Block),
        FindCommonAncestorWithTail bc nt = .ok ancestor →
        nt.hash = ancestor.hash →
        rpath.length ≤ bc.tailBlock.height →
        linked bc (bc.tailBlock :: rpath) = true →
        (bc.tailBlock :: rpath).all (fun x => !(x.hash == ancestor.hash)) = true →
        GetBlock bc (lastOf bc.tailBlock rpath).parentHash = none →
        Tail ∉ bc.storage.failPut →
        (SetTailBlock bc nt).2 = .ok () ∧
        (SetTailBlock bc nt).1.txPool =
          bc.txPool ++ returnedTxs (bc.tailBlock :: rpath)) := by
  constructor
  · intro bc nt ancestor path hfca hlen hlink hall
    have hrev := revertBlocks_ok ancestor path bc bc.tailBlock bc.tailBlock.height
      hlen hlink hall
    rw [setTail_txPool bc nt ancestor hfca, hrev]
  · intro bc nt ancestor rpath hfca heq hrlen hrlink hrnot hrmiss htail
    rw [setTail_revert_fail_scenario bc nt ancestor rpath
      hfca heq hrlen hrlink hrnot hrmiss htail]
    exact ⟨rfl, rfl⟩

/-- Witness for C4 at concrete inputs: the fork reorg returns exactly the old
branch's transactions; the broken-parent revert is suppressed and the call
still succeeds. -/
theorem revertPhase_exact_and_suppressed_witness :
    ((SetTailBlock wBC wB3s).1.txPool = wBC.txPool ++ returnedTxs [wB3, wB2]) ∧
    ((SetTailBlock wBCr wG).2 = .ok () ∧
     (SetTailBlock wBCr wG).1.txPool = wBCr.txPool ++ returnedTxs [wX3]) :=
  ⟨revertPhase_exact_and_suppressed.1 wBC wB3s wG [wB2] rfl (by decide) (by decide) (by decide),
   revertPhase_exact_and_suppressed.2 wBCr wG wG [] rfl rfl (by decide) (by decide)
     (by decide) rfl (by decide)⟩

/-- Claim C10: if the revert walk inside SetTailBlock fails with a missing
parent after visiting the listed blocks (at least the old head itself),
ReturnTransactions has already fed all visited blocks' transactions to the
pool and the effect stands, while SetTailBlock proceeds and returns success
with the new head committed. -/
theorem setTailBlock_revert_partial_effects :
    ∀ (bc : BlockChain) (nt ancestor : Block) (rpath : List Block),
      FindCommonAncestorWithTail bc nt = .ok ancestor →
      nt.hash = ancestor.hash →
      rpath.length ≤ bc.tailBlock.height →
      linked bc (bc.tailBlock :: rpath) = true →
      (bc.tailBlock :: rpath).all (fun x => !(x.hash == ancestor.hash)) = true →
      GetBlock bc (lastOf bc.tailBlock rpath).parentHash = none →
      Tail ∉ bc.storage.failPut →
      (SetTailBlock bc nt).1.txPool =
        bc.txPool ++ returnedTxs (bc.tailBlock :: rpath) ∧
      (SetTailBlock bc nt).2 = .ok () ∧
      (SetTailBlock bc nt).1.tailBlock = nt := by
  intro bc nt ancestor rpath hfca heq hrlen hrlink hrnot hrmiss htail
  rw [setTail_revert_fail_scenario bc nt ancestor rpath
    hfca heq hrlen hrlink hrnot hrmiss htail]
  exact ⟨rfl, rfl, rfl⟩

/-- Witness for C10 at a concrete input: the old head's parent is missing, so
the revert stops after one block, whose transactions are in the pool while
the call succeeds and the head moves. -/
theorem setTailBlock_revert_partial_effects_witness :
    (SetTailBlock wBCr wG).1.txPool = wBCr.txPool ++ returnedTxs [wX3] ∧
    (SetTailBlock wBCr wG).2 = .ok () ∧
    (SetTailBlock wBCr wG).1.tailBlock = wG :=
  setTailBlock_revert_partial_effects wBCr wG wG [] rfl rfl (by decide) (by decide)
    (by decide) rfl (by decide)

/-- Claim C9: loading a persisted genesis whose chain id differs from the
configured one aborts bootstrap with GenesisConfNotMatch; no BlockChain
value is produced. -/
theorem newBlockChain_genesis_mismatch :
    ∀ (conf : GenesisConf) (s : Storage) (bs : Bytes) (g : Block),
      s.get GenesisHash = .ok bs →
      decodeBlock bs = some g →
      g.chainID ≠ conf.chainID →
      NewBlockChain conf s = .error .genesisConfNotMatch := by
  intro conf s bs g h1 h2 h3
  have hlb : LoadBlockFromStorage GenesisHash s = .ok g := by
    rw [LoadBlockFromStorage]
    simp only [h1, h2]
  have hlg : loadGenesisFromStorage conf s = .error .genesisConfNotMatch := by
    rw [loadGenesisFromStorage]
    simp only [hlb]
    rw [if_pos (Ne.symm h3)]
  rw [NewBlockChain, hlg]

/-- Witness for C9: a stored genesis with chain id 1 against a configured
chain id 2 fails bootstrap. -/
theorem newBlockChain_genesis_mismatch_witness :
    wStGen.get GenesisHash = .ok (encodeBlock wGen1) ∧
    decodeBlock (encodeBlock wGen1) = some wGen1 ∧
    wGen1.chainID ≠ (2 : Nat) ∧
    NewBlockChain { chainID := 2 } wStGen = .error .genesisConfNotMatch :=
  ⟨rfl, rfl, by decide,
   newBlockChain_genesis_mismatch { chainID := 2 } wStGen (encodeBlock wGen1) wGen1
     rfl rfl (by decide)⟩

/-- Counterexample for C5 as stated: a storage I/O fault on the height-7
index key is reported by GetBlockByHeight as a plain miss (nil), not as a
propagated error — the store signalled ioErr, not key-not-found; and corrupt
block bytes under the key 7 7 are likewise reported as a miss rather than a
surfaced corruption error. -/
theorem getBlock_uniform_miss_cex :
    GetBlockByHeight wBC5 7 = none ∧
    wBC5.storage.get (fromUint64 7) = .error .ioErr ∧
    Err.ioErr ≠ Err.keyNotFound ∧
    wBC5.storage.get [7, 7] = .ok [250] ∧
    decodeBlock [250] = none ∧
    GetBlock wBC5 [7, 7] = none :=
  ⟨rfl, rfl, by decide, rfl, rfl, rfl⟩

/-- Claim C5, amended: GetBlock and GetBlockByHeight collapse every failure
— key-not-found, any other storage error, and a decode failure of stored
block bytes — uniformly into a miss (nil); no error is propagated to the
caller, and a block is returned exactly when the bytes are found and decode. -/
theorem getBlock_uniform_miss :
    (∀ (bc : BlockChain) (h : Nat) (e : Err),
        bc.storage.get (fromUint64 h) = .error e → GetBlockByHeight bc h = none) ∧
    (∀ (bc : BlockChain) (k : Bytes) (e : Err),
        bc.cachedBlocks.get k = none → bc.storage.get k = .error e → GetBlock bc k = none) ∧
    (∀ (bc : BlockChain) (k bs : Bytes),
        bc.cachedBlocks.get k = none → bc.storage.get k = .ok bs → decodeBlock bs = none →
        GetBlock bc k = none) ∧
    (∀ (bc : BlockChain) (k bs : Bytes) (b : Block),
        bc.cachedBlocks.get k = none → bc.storage.get k = .ok bs → decodeBlock bs = some b →
        GetBlock bc k = some b) := by
  refine ⟨?_, ?_, ?_, ?_⟩
  · intro bc h e hget
    rw [GetBlockByHeight, hget]
  · intro bc k e hc hget
    rw [GetBlock, hc, LoadBlockFromStorage, hget]
  · intro bc k bs hc hget hdec
    rw [GetBlock, hc, LoadBlockFromStorage]
    simp only [hget, hdec]
  · intro bc k bs b hc hget hdec
    rw [GetBlock, hc, LoadBlockFromStorage]
    simp only [hget, hdec]

/-- Witness for the amended C5 at concrete inputs: the injected I/O fault,
the corrupt record, and an intact record. -/
theorem getBlock_uniform_miss_witness :
    GetBlockByHeight wBC5 7 = none ∧
    GetBlock wBC5 [7, 7] = none ∧
    GetBlock wBC8 (fromUint64 9) = none ∧
    GetBlock { wBC with
                cachedBlocks := { cap := 1024, entries := [] },
                storage := wStGen } GenesisHash = some wGen1 :=
  ⟨getBlock_uniform_miss.1 wBC5 7 .ioErr rfl,
   getBlock_uniform_miss.2.2.1 wBC5 [7, 7] [250] rfl rfl rfl,
   getBlock_uniform_miss.2.1 wBC8 (fromUint64 9) .keyNotFound rfl rfl,
   getBlock_uniform_miss.2.2.2 _ GenesisHash (encodeBlock wGen1) wGen1 rfl rfl rfl⟩

/-! ## LRU lemmas for the detached-tails set and the block cache -/

theorem lookupV_cons_ne {q k : Bytes} {v : Block} {d : List (Bytes × Block)} (h : q ≠ k) :
    ((k, v) :: d).lookup q = d.lookup q := by
  have hb : (q == k) = false := beq_eq_false_iff_ne.mpr h
  simp [List.lookup, hb]

theorem lookupV_cons_self {k : Bytes} {v : Block} {d : List (Bytes × Block)} :
    ((k, v) :: d).lookup k = some v := by
  simp [List.lookup]

theorem lookupV_filter (k0 : Bytes) :
    ∀ (l : List (Bytes × Block)) (k : Bytes),
      (l.filter (fun e => !(e.1 == k0))).lookup k =
        if k = k0 then none else l.lookup k := by
  intro l
  induction l with
  | nil => intro k; simp [List.lookup]
  | cons e rest ih =>
    intro k
    rcases e with ⟨a, b⟩
    by_cases ha : a = k0
    · subst ha
      by_cases hk : k = a
      · subst hk
        simp [List.filter_cons, ih]
      · simp [List.filter_cons, ih, hk, lookupV_cons_ne hk]
    · by_cases hk : k = a
      · subst hk
        have hne : k ≠ k0 := ha
        simp [List.filter_cons, ha, lookupV_cons_self, hne]
      · simp [List.filter_cons, ha, lookupV_cons_ne hk, ih]

theorem lru_remove_get (c : LRU) (k0 k : Bytes) :
    (c.remove k0).get k = if k = k0 then none else c.get k := by
  show (c.entries.filter (fun e => !(e.1 == k0))).lookup k = _
  exact lookupV_filter k0 c.entries k

theorem containsOrAdd_cap (c : LRU) (k : Bytes) (v : Block) :
    (c.containsOrAdd k v).cap = c.cap := by
  rw [LRU.containsOrAdd]
  by_cases h : (c.entries.lookup k).isSome <;> simp [h]

theorem containsOrAdd_len (c : LRU) (k : Bytes) (v : Block) :
    (c.containsOrAdd k v).entries.length ≤ c.entries.length + 1 := by
  rw [LRU.containsOrAdd]
  by_cases h : (c.entries.lookup k).isSome
  · simp [h]
  · simp only [h, if_false]
    calc (((k, v) :: c.entries).take c.cap).length ≤ ((k, v) :: c.entries).length :=
          (List.length_take _ _).le.trans (by simp [Nat.min_le_right])
    _ = c.entries.length + 1 := by simp

theorem containsOrAdd_get_isSome (c : LRU) (k : Bytes) (v : Block) (hcap : 0 < c.cap) :
    ((c.containsOrAdd k v).get k).isSome := by
  rw [LRU.containsOrAdd]
  by_cases h : (c.entries.lookup k).isSome
  · rw [if_pos h]
    exact h
  · rw [if_neg h]
    show ((((k, v) :: c.entries)).take c.cap).lookup k |>.isSome
    rcases Nat.exists_eq_add_of_lt hcap with ⟨m, hm⟩
    rw [hm, Nat.zero_add, List.take_succ_cons, lookupV_cons_self]
    rfl

theorem containsOrAdd_get_other (c : LRU) (k k2 : Bytes) (v : Block) (hne : k2 ≠ k)
    (hlen : c.entries.length + 1 ≤ c.cap) :
    (c.containsOrAdd k v).get k2 = c.get k2 := by
  rw [LRU.containsOrAdd]
  by_cases h : (c.entries.lookup k).isSome
  · rw [if_pos h]
  · rw [if_neg h]
    show ((((k, v) :: c.entries)).take c.cap).lookup k2 = _
    rw [List.take_of_length_le (by simpa using hlen), lookupV_cons_ne hne]
    rfl

theorem foldl_containsOrAdd_isSome :
    ∀ (tails : List Block) (c : LRU) (k : Bytes),
      c.entries.length + tails.length ≤ c.cap →
      (((tails.foldl (fun (c : LRU) (v : Block) => c.containsOrAdd v.hash v) c).get k).isSome ↔
        (c.get k).isSome ∨ k ∈ tails.map (fun b => b.hash)) := by
  intro tails
  induction tails with
  | nil => intro c k h; simp
  | cons t rest ih =>
    intro c k h
    simp only [List.foldl_cons]
    have hcap : 0 < c.cap := by simp at h; omega
    have hlen1 : c.entries.length + 1 ≤ c.cap := by simp at h; omega
    have hlen2 : (c.containsOrAdd t.hash t).entries.length + rest.length ≤
        (c.containsOrAdd t.hash t).cap := by
      rw [containsOrAdd_cap]
      have := containsOrAdd_len c t.hash t
      simp at h
      omega
    rw [ih (c.containsOrAdd t.hash t) k hlen2]
    by_cases hk : k = t.hash
    · subst hk
      constructor
      · intro _
        exact Or.inr (by simp)
      · intro _
        exact Or.inl (containsOrAdd_get_isSome c t.hash t hcap)
    · rw [containsOrAdd_get_other c t.hash k t hk hlen1]
      simp only [List.map_cons, List.mem_cons]
      constructor
      · intro hh
        rcases hh with hh | hh
        · exact Or.inl hh
        · exact Or.inr (Or.inr hh)
      · intro hh
        rcases hh with hh | hh | hh
        · exact Or.inl hh
        · exact absurd hh hk
        · exact Or.inr hh

theorem putBlocksLoop_detached :
    ∀ (l : List Block) (bc : BlockChain),
      (putBlocksLoop bc l).1.detachedTailBlocks = bc.detachedTailBlocks := by
  intro l
  induction l with
  | nil => intro bc; rfl
  | cons v rest ih =>
    intro bc
    rw [putBlocksLoop]
    cases hs : storeBlockToStorage
        { bc with cachedBlocks := bc.cachedBlocks.containsOrAdd v.hash v } v with
    | error e => simp [hs]
    | ok st =>
      simp only [hs]
      rw [ih]

/-- Counterexample for C6 as stated: when the parent is itself among the new
tail blocks, the code's order (insert tails, then remove the parent) leaves
the parent's hash absent from the detached-tails set, while the claimed
order (remove the parent first, then insert the tails) leaves it present. -/
theorem putVerifiedNewBlocks_order_cex :
    (putVerifiedNewBlocks wBC wG [] [wG]).1.detachedTailBlocks.get wG.hash = none ∧
    (putVerifiedNewBlocksSpecOrder wBC wG [] [wG]).1.detachedTailBlocks.get wG.hash =
      some wG :=
  ⟨rfl, rfl⟩

/-- Claim C6, amended: when the block-persisting loop succeeds,
putVerifiedNewBlocks first inserts each tail block's hash into the
detached-tails set and then removes the parent's hash, so a key ends up
present exactly when it differs from the parent's hash and was either
already present or is one of the tail hashes (absent eviction). -/
theorem putVerifiedNewBlocks_detached_order :
    ∀ (bc : BlockChain) (parent : Block) (allBlocks tails : List Block)
      (bc1 : BlockChain) (u : Unit),
      putBlocksLoop bc allBlocks = (bc1, .ok u) →
      bc.detachedTailBlocks.entries.length + tails.length ≤ bc.detachedTailBlocks.cap →
      (putVerifiedNewBlocks bc parent allBlocks tails).2 = .ok () ∧
      ∀ k : Bytes,
        (((putVerifiedNewBlocks bc parent allBlocks tails).1.detachedTailBlocks.get k).isSome ↔
          (k ≠ parent.hash ∧
            ((bc.detachedTailBlocks.get k).isSome ∨ k ∈ tails.map (fun b => b.hash)))) := by
  intro bc parent allBlocks tails bc1 u hpl hcap
  have hdet : bc1.detachedTailBlocks = bc.detachedTailBlocks := by
    have := putBlocksLoop_detached allBlocks bc
    rw [hpl] at this
    exact this
  rw [putVerifiedNewBlocks, hpl]
  refine ⟨rfl, ?_⟩
  intro k
  show ((((tails.foldl (fun (c : LRU) (v : Block) => c.containsOrAdd v.hash v)
      bc1.detachedTailBlocks).remove parent.hash).get k).isSome ↔ _)
  rw [lru_remove_get]
  by_cases hk : k = parent.hash
  · simp [hk]
  · rw [if_neg hk, hdet,
      foldl_containsOrAdd_isSome tails bc.detachedTailBlocks k hcap]
    simp [hk]

/-- Witness for the amended C6: two side-branch tails are inserted and the
parent removed; membership matches the characterization. -/
theorem putVerifiedNewBlocks_detached_order_witness :
    (putVerifiedNewBlocks wBC wB2s [] [wB3s, wB4s]).2 = .ok () ∧
    ∀ k : Bytes,
      (((putVerifiedNewBlocks wBC wB2s [] [wB3s, wB4s]).1.detachedTailBlocks.get k).isSome ↔
        (k ≠ wB2s.hash ∧
          ((wBC.detachedTailBlocks.get k).isSome ∨ k ∈ [wB3s, wB4s].map (fun b => b.hash)))) :=
  putVerifiedNewBlocks_detached_order wBC wB2s [] [wB3s, wB4s] wBC () rfl (by decide)

theorem putBlocksLoop_state :
    ∀ (l : List Block) (bc : BlockChain),
      ∃ pre, (putBlocksLoop bc l).1.storage.data = pre ++ bc.storage.data ∧
        (∀ kk ∈ pre.map (fun e => (e : Bytes × Bytes).1), kk ∈ l.map (fun b => b.hash)) := by
  intro l
  induction l with
  | nil => intro bc; exact ⟨[], rfl, by simp⟩
  | cons v rest ih =>
    intro bc
    rw [putBlocksLoop]
    cases hs : storeBlockToStorage
        { bc with cachedBlocks := bc.cachedBlocks.containsOrAdd v.hash v } v with
    | error e =>
      simp only [hs]
      exact ⟨[], rfl, by simp⟩
    | ok st =>
      simp only [hs]
      have hshape := put_shape hs
      obtain ⟨pre, hpre, hkeys⟩ := ih { bc with
        cachedBlocks := bc.cachedBlocks.containsOrAdd v.hash v, storage := st }
      refine ⟨pre ++ [(v.hash, encodeBlock v)], ?_, ?_⟩
      · rw [hpre, hshape]
        simp [List.append_assoc]
      · intro kk hkk
        simp only [List.map_append, List.mem_append, List.map_cons, List.map_nil] at hkk
        rcases hkk with hkk | hkk
        · have := hkeys kk hkk
          simp only [List.map_cons, List.mem_cons]
          exact Or.inr this
        · simp at hkk
          simp [hkk]

theorem putBlocksLoop_ok_store :
    ∀ (l : List Block) (bc bc1 : BlockChain) (u : Unit),
      putBlocksLoop bc l = (bc1, .ok u) →
      (l.map (fun b => b.hash)).Nodup →
      ∀ b ∈ l, bc1.storage.data.lookup b.hash = some (encodeBlock b) := by
  intro l
  induction l with
  | nil => intro bc bc1 u hpl hnd b hb; simp at hb
  | cons v rest ih =>
    intro bc bc1 u hpl hnd b hb
    rw [putBlocksLoop] at hpl
    cases hs : storeBlockToStorage
        { bc with cachedBlocks := bc.cachedBlocks.containsOrAdd v.hash v } v with
    | error e =>
      rw [hs] at hpl
      simp at hpl
    | ok st =>
      rw [hs] at hpl
      simp only at hpl
      have hshape := put_shape hs
      simp only [List.map_cons, List.nodup_cons] at hnd
      rcases List.mem_cons.mp hb with hbv | hbr
      · subst hbv
        obtain ⟨pre, hpre, hkeys⟩ := putBlocksLoop_state rest { bc with
          cachedBlocks := bc.cachedBlocks.containsOrAdd b.hash b, storage := st }
        rw [hpl] at hpre
        simp only at hpre
        rw [hpre]
        have hnot : b.hash ∉ pre.map (fun e => (e : Bytes × Bytes).1) := by
          intro hmem
          exact hnd.1 (hkeys b.hash hmem)
        rw [lookup_append_not_mem hnot,
          show st.data = (b.hash, encodeBlock b) :: bc.storage.data by rw [hshape],
          lookup_cons_self]
      · exact ih _ bc1 u hpl hnd.2 b hbr

theorem putBlocksLoop_fail_scenario :
    ∀ (pre : List Block) (bc : BlockChain) (bfail : Block) (rest : List Block),
      (∀ b ∈ pre, b.hash ∉ bc.storage.failPut) →
      bfail.hash ∈ bc.storage.failPut →
      0 < bc.cachedBlocks.cap →
      ∃ bcf, putBlocksLoop bc (pre ++ bfail :: rest) = (bcf, .error .ioErr) ∧
        ((bcf.cachedBlocks.get bfail.hash).isSome) ∧
        bcf.storage.data.lookup bfail.hash = bc.storage.data.lookup bfail.hash := by
  intro pre
  induction pre with
  | nil =>
    intro bc bfail rest hpre hf hcap
    have hso : storeBlockToStorage
        { bc with cachedBlocks := bc.cachedBlocks.containsOrAdd bfail.hash bfail } bfail =
        .error .ioErr := by
      show Storage.put _ bfail.hash (encodeBlock bfail) = _
      rw [Storage.put]
      simp [hf]
    refine ⟨{ bc with cachedBlocks := bc.cachedBlocks.containsOrAdd bfail.hash bfail },
      ?_, ?_, rfl⟩
    · rw [List.nil_append, putBlocksLoop, hso]
    · exact containsOrAdd_get_isSome bc.cachedBlocks bfail.hash bfail hcap
  | cons p pre2 ih =>
    intro bc bfail rest hpre hf hcap
    have hp : p.hash ∉ bc.storage.failPut := hpre p (by simp)
    have hso : storeBlockToStorage
        { bc with cachedBlocks := bc.cachedBlocks.containsOrAdd p.hash p } p =
        .ok { data := (p.hash, encodeBlock p) :: bc.storage.data,
              failPut := bc.storage.failPut, failGet := bc.storage.failGet } := by
      show Storage.put _ p.hash (encodeBlock p) = _
      rw [Storage.put]
      simp [hp]
    have hpre2 : ∀ b ∈ pre2,
        b.hash ∉ ({ bc with
          cachedBlocks := bc.cachedBlocks.containsOrAdd p.hash p,
          storage := { data := (p.hash, encodeBlock p) :: bc.storage.data,
                       failPut := bc.storage.failPut,
                       failGet := bc.storage.failGet } } : BlockChain).storage.failPut := by
      intro b hb
      exact hpre b (by simp [hb])
    have hcap2 : 0 < ({ bc with
        cachedBlocks := bc.cachedBlocks.containsOrAdd p.hash p,
        storage := { data := (p.hash, encodeBlock p) :: bc.storage.data,
                     failPut := bc.storage.failPut,
                     failGet := bc.storage.failGet } } : BlockChain).cachedBlocks.cap := by
      show 0 < (bc.cachedBlocks.containsOrAdd p.hash p).cap
      rw [containsOrAdd_cap]
      exact hcap
    obtain ⟨bcf, heq, hcache, hlook⟩ := ih _ bfail rest hpre2 hf hcap2
    refine ⟨bcf, ?_, hcache, ?_⟩
    · rw [List.cons_append, putBlocksLoop, hso]
      exact heq
    · rw [hlook]
      have hne : bfail.hash ≠ p.hash := by
        intro hh
        rw [hh] at hf
        exact hp hf
      exact lookup_cons_ne hne

/-- Counterexample for C8 as stated: a putVerifiedNewBlocks call whose
storage write fails leaves the failing block in the in-memory block cache
while it is absent from persistent storage. -/
theorem putVerifiedNewBlocks_persistence_cex :
    (putVerifiedNewBlocks wBC8 wB3 [wB8] []).2 = .error .ioErr ∧
    (putVerifiedNewBlocks wBC8 wB3 [wB8] []).1.cachedBlocks.get wB8.hash = some wB8 ∧
    (putVerifiedNewBlocks wBC8 wB3 [wB8] []).1.storage.get wB8.hash =
      .error .keyNotFound :=
  ⟨rfl, rfl, rfl⟩

/-- Claim C8, amended: putVerifiedNewBlocks admits each block into the cache
before persisting it, so the cache-in-storage containment holds only for the
blocks of a successful call — each block of a successful batch is in
persistent storage — while a call failing on a storage write leaves the
failing block cached but absent from storage. -/
theorem putVerifiedNewBlocks_persistence :
    (∀ (bc : BlockChain) (parent : Block) (allBlocks tails : List Block),
        (putVerifiedNewBlocks bc parent allBlocks tails).2 = .ok () →
        (allBlocks.map (fun b => b.hash)).Nodup →
        ∀ b ∈ allBlocks,
          (putVerifiedNewBlocks bc parent allBlocks tails).1.storage.data.lookup b.hash =
            some (encodeBlock b)) ∧
    (∀ (bc : BlockChain) (parent bfail : Block) (pre rest tails : List Block),
        (∀ b ∈ pre, b.hash ∉ bc.storage.failPut) →
        bfail.hash ∈ bc.storage.failPut →
        0 < bc.cachedBlocks.cap →
        (putVerifiedNewBlocks bc parent (pre ++ bfail :: rest) tails).2 = .error .ioErr ∧
        (((putVerifiedNewBlocks bc parent (pre ++ bfail :: rest) tails).1.cachedBlocks.get
            bfail.hash).isSome) ∧
        (putVerifiedNewBlocks bc parent (pre ++ bfail :: rest) tails).1.storage.data.lookup
            bfail.hash =
          bc.storage.data.lookup bfail.hash) := by
  constructor
  · intro bc parent allBlocks tails hok hnd b hb
    rcases hpl : putBlocksLoop bc allBlocks with ⟨bcx, r⟩
    cases r with
    | error e =>
      rw [putVerifiedNewBlocks, hpl] at hok
      simp at hok
    | ok u =>
      rw [putVerifiedNewBlocks, hpl]
      show bcx.storage.data.lookup b.hash = some (encodeBlock b)
      exact putBlocksLoop_ok_store allBlocks bc bcx u hpl hnd b hb
  · intro bc parent bfail pre rest tails hpre hf hcap
    obtain ⟨bcf, heq, hcache, hlook⟩ := putBlocksLoop_fail_scenario pre bc bfail rest
      hpre hf hcap
    rw [putVerifiedNewBlocks, heq]
    exact ⟨rfl, hcache, hlook⟩

/-- Witness for the amended C8: a successful batch persists its block; the
batch with an injected Put fault keeps the failing block cached and out of
storage. -/
theorem putVerifiedNewBlocks_persistence_witness :
    ((putVerifiedNewBlocks wBC wB3s [wB4s] [wB4s]).2 = .ok () ∧
      (putVerifiedNewBlocks wBC wB3s [wB4s] [wB4s]).1.storage.data.lookup wB4s.hash =
        some (encodeBlock wB4s)) ∧
    ((putVerifiedNewBlocks wBC8 wB3 [wB8] []).2 = .error .ioErr ∧
      (((putVerifiedNewBlocks wBC8 wB3 [wB8] []).1.cachedBlocks.get wB8.hash).isSome) ∧
      (putVerifiedNewBlocks wBC8 wB3 [wB8] []).1.storage.data.lookup wB8.hash =
        wBC8.storage.data.lookup wB8.hash) :=
  ⟨⟨rfl, putVerifiedNewBlocks_persistence.1 wBC wB3s [wB4s] [wB4s] rfl (by decide) wB4s
      (by decide)⟩,
   putVerifiedNewBlocks_persistence.2 wBC8 wB3 wB8 [] [] [] (by simp) (by decide) (by decide)⟩

/-! ## Descendant-fetch lemmas -/

theorem goUint64_of_nonneg (n : Int) (h0 : 0 ≤ n) (h1 : n < (2 ^ 64 : Int)) :
    goUint64OfInt n = n.toNat := by
  rw [goUint64OfInt]
  have hm : n % ((U64 : Nat) : Int) = n := by
    apply Int.emod_eq_of_lt h0
    rw [U64]
    push_cast
    exact h1
  rw [hm]

theorem fetchLoop_ok (bc : BlockChain) (tailHeight nU curHeight : Nat) :
    ∀ (bs : List Block) (index fuel : Nat) (acc : List Block),
      curHeight + index + bs.length ≤ U64 →
      index + bs.length ≤ nU →
      (∀ j, j < bs.length → curHeight + index + j ≤ tailHeight) →
      (List.range' (curHeight + index) bs.length).map (fun h => GetBlockByHeight bc h) =
        bs.map some →
      (tailHeight < (curHeight + index + bs.length) % U64 ∨ nU ≤ index + bs.length) →
      bs.length < fuel →
      fetchLoop bc curHeight tailHeight nU fuel index acc = .ok (acc ++ bs) := by
  intro bs
  induction bs with
  | nil =>
    intro index fuel acc hU hn hcont hmap hstop hfuel
    cases fuel with
    | zero => omega
    | succ f =>
      rw [fetchLoop]
      rw [if_neg ?_]
      · simp
      · rintro ⟨h1, h2⟩
        rcases hstop with hs | hs
        · simp only [List.length_nil, Nat.add_zero] at hs
          omega
        · simp only [List.length_nil, Nat.add_zero] at hs
          omega
  | cons b rest ih =>
    intro index fuel acc hU hn hcont hmap hstop hfuel
    cases fuel with
    | zero => omega
    | succ f =>
      have hlt : curHeight + index < U64 := by
        simp only [List.length_cons] at hU
        omega
      have hmod : (curHeight + index) % U64 = curHeight + index := Nat.mod_eq_of_lt hlt
      have hcond : (curHeight + index) % U64 ≤ tailHeight ∧ index < nU := by
        rw [hmod]
        constructor
        · have := hcont 0 (by simp)
          simpa using this
        · simp only [List.length_cons] at hn
          omega
      rw [fetchLoop, if_pos hcond]
      simp only [List.length_cons, List.range'_succ, List.map_cons, List.cons_eq_cons] at hmap
      rw [hmod, hmap.1]
      have harith : curHeight + index + 1 = curHeight + (index + 1) := by omega
      have hmap2 : (List.range' (curHeight + (index + 1)) rest.length).map
          (fun h => GetBlockByHeight bc h) = rest.map some := by
        rw [← harith]
        exact hmap.2
      have hres := ih (index + 1) f (acc ++ [b])
        (by simp only [List.length_cons] at hU; omega)
        (by simp only [List.length_cons] at hn; omega)
        (by
          intro j hj
          have := hcont (j + 1) (by simp; omega)
          omega)
        hmap2
        (by
          rcases hstop with hs | hs
          · left
            have : curHeight + (index + 1) + rest.length =
                curHeight + index + (b :: rest).length := by simp; omega
            rw [this]
            exact hs
          · right
            simp only [List.length_cons] at hs
            omega)
        (by simp only [List.length_cons] at hfuel; omega)
      show fetchLoop bc curHeight tailHeight nU f (index + 1) (acc ++ [b]) = _
      rw [hres]
      simp

theorem fetchLoop_miss (bc : BlockChain) (tailHeight nU curHeight : Nat) :
    ∀ (k index fuel : Nat) (acc : List Block),
      curHeight + index + k < U64 →
      index + k < nU →
      (∀ j, j ≤ k → curHeight + index + j ≤ tailHeight) →
      GetBlockByHeight bc (curHeight + index + k) = none →
      k < fuel →
      fetchLoop bc curHeight tailHeight nU fuel index acc =
        .error .cannotFindBlockAtGivenHeight := by
  intro k
  induction k with
  | zero =>
    intro index fuel acc hU hn hcont hmiss hfuel
    cases fuel with
    | zero => omega
    | succ f =>
      have hlt : curHeight + index < U64 := by omega
      have hmod : (curHeight + index) % U64 = curHeight + index := Nat.mod_eq_of_lt hlt
      have hcond : (curHeight + index) % U64 ≤ tailHeight ∧ index < nU := by
        rw [hmod]
        exact ⟨by simpa using hcont 0 (by omega), by omega⟩
      rw [fetchLoop, if_pos hcond, hmod]
      simp only [Nat.add_zero] at hmiss
      rw [hmiss]
  | succ k2 ih =>
    intro index fuel acc hU hn hcont hmiss hfuel
    cases fuel with
    | zero => omega
    | succ f =>
      have hlt : curHeight + index < U64 := by omega
      have hmod : (curHeight + index) % U64 = curHeight + index := Nat.mod_eq_of_lt hlt
      have hcond : (curHeight + index) % U64 ≤ tailHeight ∧ index < nU := by
        rw [hmod]
        exact ⟨by simpa using hcont 0 (by omega), by omega⟩
      rw [fetchLoop, if_pos hcond, hmod]
      cases hg : GetBlockByHeight bc (curHeight + index) with
      | none => rfl
      | some b =>
        apply ih (index + 1) f (acc ++ [b]) (by omega) (by omega)
          (by
            intro j hj
            have := hcont (j + 1) (by omega)
            omega)
          (by
            have : curHeight + (index + 1) + k2 = curHeight + index + (k2 + 1) := by omega
            rw [this]
            exact hmiss)
          (by omega)

/-- Counterexample for C7 as stated: with n = -1 the call is claimed to
return at most n blocks (none), but Go's uint64 conversion turns -1 into
2 to the 64 minus 1, so the call returns every canonical block up to the
tail — here two blocks, and 2 is not at most -1. -/
theorem fetchDescendant_negative_cex :
    FetchDescendantInCanonicalChain wBC (-1) wG = .ok [wB2, wB3] ∧
    ¬ ((([wB2, wB3] : List Block).length : Int) ≤ (-1 : Int)) :=
  ⟨rfl, by decide⟩

/-- Claim C7, amended: for 0 ≤ n < 2^64 (and heights below the uint64 wrap),
FetchDescendantInCanonicalChain returns exactly the canonical blocks at
heights B.height+1 through min(tail.height, B.height+n), in ascending
height order — hence at most n blocks — and returns
CannotFindBlockAtGivenHeight when the canonical lookup misses at a height in
that range; for negative n the bound becomes the uint64 conversion 2^64+n,
so the call can return up to tail.height - B.height blocks. -/
theorem fetchDescendant_bounded_range :
    (∀ (bc : BlockChain) (n : Int) (block : Block) (bs : List Block),
        0 ≤ n → n < (2 ^ 64 : Int) →
        block.height + 1 < U64 →
        bc.tailBlock.height + 1 < U64 →
        bs.length = min (bc.tailBlock.height - block.height) n.toNat →
        (List.range' (block.height + 1) bs.length).map (fun h => GetBlockByHeight bc h) =
          bs.map some →
        FetchDescendantInCanonicalChain bc n block = .ok bs ∧ (bs.length : Int) ≤ n) ∧
    (∀ (bc : BlockChain) (n : Int) (block : Block) (k : Nat),
        0 ≤ n → n < (2 ^ 64 : Int) →
        block.height + 1 < U64 →
        bc.tailBlock.height + 1 < U64 →
        k < n.toNat →
        block.height + 1 + k ≤ bc.tailBlock.height →
        GetBlockByHeight bc (block.height + 1 + k) = none →
        FetchDescendantInCanonicalChain bc n block =
          .error .cannotFindBlockAtGivenHeight) := by
  constructor
  · intro bc n block bs h0 h1 hbH htl hlen hmap
    constructor
    · show fetchLoop bc ((block.height + 1) % U64) bc.tailBlock.height (goUint64OfInt n)
        (min (goUint64OfInt n + 1) (2 * bc.tailBlock.height + 3)) 0 [] = .ok bs
      rw [goUint64_of_nonneg n h0 h1, Nat.mod_eq_of_lt hbH]
      have hmap2 : (List.range' (block.height + 1 + 0) bs.length).map
          (fun h => GetBlockByHeight bc h) = bs.map some := by
        simpa using hmap
      have hres := fetchLoop_ok bc bc.tailBlock.height n.toNat (block.height + 1) bs 0
        (min (n.toNat + 1) (2 * bc.tailBlock.height + 3)) []
        (by omega) (by omega)
        (by intro j hj; omega)
        hmap2
        (by
          rcases Nat.le_total (bc.tailBlock.height - block.height) n.toNat with hmin | hmin
          · left
            have hlen2 : bs.length = bc.tailBlock.height - block.height := by omega
            have hsmall : block.height + 1 + 0 + bs.length < U64 := by omega
            rw [Nat.mod_eq_of_lt hsmall]
            omega
          · right
            omega)
        (by
          refine Nat.lt_min.mpr ⟨by omega, by omega⟩)
      rw [hres]
      simp
    · have : bs.length ≤ n.toNat := by omega
      omega
  · intro bc n block k h0 h1 hbH htl hkn hkt hmiss
    show fetchLoop bc ((block.height + 1) % U64) bc.tailBlock.height (goUint64OfInt n)
        (min (goUint64OfInt n + 1) (2 * bc.tailBlock.height + 3)) 0 [] =
      .error .cannotFindBlockAtGivenHeight
    rw [goUint64_of_nonneg n h0 h1, Nat.mod_eq_of_lt hbH]
    have hmiss2 : GetBlockByHeight bc (block.height + 1 + 0 + k) = none := by
      simpa using hmiss
    exact fetchLoop_miss bc bc.tailBlock.height n.toNat (block.height + 1) k 0
      (min (n.toNat + 1) (2 * bc.tailBlock.height + 3)) []
      (by omega) (by omega)
      (by intro j hj; omega)
      hmiss2
      (by refine Nat.lt_min.mpr ⟨by omega, by omega⟩)

/-- Witness for the amended C7: fetching two descendants of the genesis on
the canonical branch, and a fetch across the missing height-2 index entry. -/
theorem fetchDescendant_bounded_range_witness :
    (FetchDescendantInCanonicalChain wBC 2 wG = .ok [wB2, wB3] ∧
      (([wB2, wB3] : List Block).length : Int) ≤ (2 : Int)) ∧
    FetchDescendantInCanonicalChain wBCg 5 wG = .error .cannotFindBlockAtGivenHeight :=
  ⟨fetchDescendant_bounded_range.1 wBC 2 wG [wB2, wB3] (by decide) (by decide) (by decide)
      (by decide) (by decide) rfl,
   fetchDescendant_bounded_range.2 wBCg 5 wG 0 (by decide) (by decide) (by decide)
      (by decide) (by decide) (by decide) rfl⟩

/-! ## Well-formed-store and ancestry lemmas for the common-ancestor search -/

theorem getBlock_mem_storeKeys {bc : BlockChain} {h : Bytes} {b : Block}
    (hg : GetBlock bc h = some b) : h ∈ storeKeys bc := by
  rw [GetBlock] at hg
  cases hc : bc.cachedBlocks.get h with
  | some b2 =>
    have : h ∈ bc.cachedBlocks.entries.map (fun e => e.1) := lookupB_mem hc
    rw [storeKeys, List.mem_append]
    exact Or.inl (by simpa [LRU.keys] using this)
  | none =>
    rw [hc] at hg
    cases hl : LoadBlockFromStorage h bc.storage with
    | error e => rw [hl] at hg; simp at hg
    | ok b2 =>
      rw [LoadBlockFromStorage] at hl
      cases hs : bc.storage.get h with
      | error e => rw [hs] at hl; simp at hl
      | ok bs =>
        rw [Storage.get] at hs
        by_cases hf : h ∈ bc.storage.failGet
        · simp [hf] at hs
        · simp only [hf, if_false] at hs
          cases hlook : bc.storage.data.lookup h with
          | none => rw [hlook] at hs; simp at hs
          | some v =>
            rw [storeKeys, List.mem_append]
            exact Or.inr (lookup_mem hlook)

theorem storeWF_spec {bc : BlockChain} {g : Nat} (hwf : StoreWF bc g = true)
    {h : Bytes} {b : Block} (hg : GetBlock bc h = some b) :
    b.hash = h ∧ g ≤ b.height ∧
      (g < b.height → ∃ p, GetBlock bc b.parentHash = some p ∧ p.height + 1 = b.height) := by
  have hmem := getBlock_mem_storeKeys hg
  rw [StoreWF, List.all_eq_true] at hwf
  have := hwf h hmem
  rw [hg] at this
  simp only [Bool.and_eq_true, beq_iff_eq] at this
  refine ⟨this.1, ?_, ?_⟩
  · have := this.2
    rw [blockOK, Bool.and_eq_true] at this
    exact of_decide_eq_true this.1
  · intro hlt
    have h2 := this.2
    rw [blockOK, Bool.and_eq_true] at h2
    have h3 := h2.2
    rw [if_pos hlt] at h3
    cases hp : GetBlock bc b.parentHash with
    | none => rw [hp] at h3; simp at h3
    | some p =>
      rw [hp] at h3
      exact ⟨p, rfl, by simpa using h3⟩

theorem instore_parent {bc : BlockChain} {g : Nat} (hwf : StoreWF bc g = true)
    {b : Block} (hb : InStore bc b) (hlt : g < b.height) :
    ∃ p, GetBlock bc b.parentHash = some p ∧ InStore bc p ∧ p.height + 1 = b.height := by
  obtain ⟨-, -, hpar⟩ := storeWF_spec hwf hb
  obtain ⟨p, hp, hh⟩ := hpar hlt
  refine ⟨p, hp, ?_, hh⟩
  have hkey := (storeWF_spec hwf hp).1
  show GetBlock bc p.hash = some p
  rw [hkey]
  exact hp

theorem iterParent_add (bc : BlockChain) (j : Nat) :
    ∀ (k : Nat) (b : Block),
      iterParent bc (j + k) b = (iterParent bc k b).bind (iterParent bc j) := by
  intro k
  induction k with
  | zero => intro b; simp [iterParent]
  | succ k2 ih =>
    intro b
    have : j + (k2 + 1) = (j + k2) + 1 := by omega
    rw [this, iterParent, iterParent]
    cases hp : GetBlock bc b.parentHash with
    | none => simp
    | some p => simp [ih p]

theorem iterParent_one (bc : BlockChain) (b : Block) :
    iterParent bc 1 b = GetBlock bc b.parentHash := by
  cases hp : GetBlock bc b.parentHash <;> simp [iterParent, hp]

theorem anc_self (bc : BlockChain) (b : Block) : anc bc b b.height = some b := by
  simp [anc, iterParent]

theorem iter_down {bc : BlockChain} {g : Nat} (hwf : StoreWF bc g = true) (h : Nat)
    (hg : g ≤ h) :
    ∀ (k : Nat) (b : Block), InStore bc b → b.height = h + k →
      ∃ a, iterParent bc k b = some a ∧ InStore bc a ∧ a.height = h := by
  intro k
  induction k with
  | zero =>
    intro b hb hh
    exact ⟨b, rfl, hb, by omega⟩
  | succ k2 ih =>
    intro b hb hh
    have hlt : g < b.height := by omega
    obtain ⟨p, hp, hpin, hph⟩ := instore_parent hwf hb hlt
    obtain ⟨a, ha, hain, hah⟩ := ih p hpin (by omega)
    refine ⟨a, ?_, hain, hah⟩
    rw [iterParent, hp]
    simpa using ha

theorem anc_exists {bc : BlockChain} {g : Nat} (hwf : StoreWF bc g = true)
    {b : Block} (hb : InStore bc b) {h : Nat} (hg : g ≤ h) (hh : h ≤ b.height) :
    ∃ a, anc bc b h = some a ∧ InStore bc a ∧ a.height = h := by
  rw [anc]
  exact iter_down hwf h hg (b.height - h) b hb (by omega)

theorem anc_split {bc : BlockChain} {b a : Block} {h h2 : Nat}
    (h1 : h2 ≤ h) (h2h : h ≤ b.height) (ha : anc bc b h = some a) (hah : a.height = h) :
    anc bc b h2 = anc bc a h2 := by
  rw [anc, anc]
  have : b.height - h2 = (h - h2) + (b.height - h) := by omega
  rw [this, iterParent_add, anc] at *
  rw [ha]
  simp [hah]

theorem anc_step_down {bc : BlockChain} {b : Block} {h : Nat}
    (hhb : h < b.height) :
    anc bc b h = (anc bc b (h + 1)).bind (fun a => GetBlock bc a.parentHash) := by
  rw [anc, anc]
  have : b.height - h = 1 + (b.height - (h + 1)) := by omega
  rw [this, iterParent_add]
  cases hx : iterParent bc (b.height - (h + 1)) b with
  | none => simp
  | some a => simp [iterParent_one]

theorem descendAbove_noop (bc : BlockChain) (bound : Nat) (fuel : Nat) (b : Block)
    (h : b.height ≤ bound) : descendAbove bc bound fuel b = .ok b := by
  cases fuel with
  | zero => simp [descendAbove, Nat.not_lt.mpr h]
  | succ f => simp [descendAbove, Nat.not_lt.mpr h]

theorem descendAbove_ok {bc : BlockChain} {g : Nat} (hwf : StoreWF bc g = true)
    {bound : Nat} (hg : g ≤ bound) :
    ∀ (k : Nat) (b : Block) (fuel : Nat), InStore bc b → b.height = bound + k →
      k < fuel →
      ∃ a, descendAbove bc bound fuel b = .ok a ∧ anc bc b bound = some a ∧
        InStore bc a ∧ a.height = bound := by
  intro k
  induction k with
  | zero =>
    intro b fuel hb hh hfuel
    refine ⟨b, descendAbove_noop bc bound fuel b (by omega), ?_, hb, by omega⟩
    have : bound = b.height := by omega
    rw [this]
    exact anc_self bc b
  | succ k2 ih =>
    intro b fuel hb hh hfuel
    cases fuel with
    | zero => omega
    | succ f =>
      have hlt : bound < b.height := by omega
      obtain ⟨p, hp, hpin, hph⟩ := instore_parent hwf hb (by omega)
      obtain ⟨a, ha, hanc, hain, hah⟩ := ih p f hpin (by omega) (by omega)
      refine ⟨a, ?_, ?_, hain, hah⟩
      · rw [descendAbove, if_pos hlt, hp]
        exact ha
      · rw [anc]
        rw [show b.height - bound = (p.height - bound) + 1 by omega]
        rw [iterParent, hp]
        rw [anc] at hanc
        simpa using hanc

theorem meetLoop_ok {bc : BlockChain} {g : Nat} {A B : Block}
    (hwf : StoreWF bc g = true) (hA : InStore bc A) (hB : InStore bc B)
    (hgen : anc bc A g = anc bc B g) :
    ∀ (d h : Nat) (tA tB : Block) (fuel : Nat),
      g ≤ h → h ≤ A.height → h ≤ B.height → d = h - g →
      anc bc A h = some tA → anc bc B h = some tB →
      (∀ h2, h < h2 → h2 ≤ A.height → h2 ≤ B.height → anc bc A h2 ≠ anc bc B h2) →
      d < fuel →
      ∃ c, meetLoop bc fuel tA tB = .ok c ∧
        g ≤ c.height ∧ c.height ≤ h ∧
        anc bc A c.height = some c ∧ anc bc B c.height = some c ∧
        (∀ h2, c.height < h2 → h2 ≤ A.height → h2 ≤ B.height →
          anc bc A h2 ≠ anc bc B h2) := by
  intro d
  induction d with
  | zero =>
    intro h tA tB fuel hg hhA hhB hd hancA hancB hinv hfuel
    have hgh : h = g := by omega
    obtain ⟨a, ha, hain, hah⟩ := anc_exists hwf hA hg hhA
    rw [hancA] at ha
    obtain rfl : tA = a := Option.some.inj ha
    obtain ⟨a2, ha2, ha2in, ha2h⟩ := anc_exists hwf hB hg hhB
    rw [hancB] at ha2
    obtain rfl : tB = a2 := Option.some.inj ha2
    have hAg : anc bc A g = some tA := by rw [← hgh]; exact hancA
    have hBg : anc bc B g = some tB := by rw [← hgh]; exact hancB
    rw [hAg, hBg] at hgen
    obtain rfl : tA = tB := Option.some.inj hgen
    cases fuel with
    | zero => omega
    | succ f =>
      refine ⟨tA, ?_, by omega, by omega, ?_, ?_, ?_⟩
      · rw [meetLoop, if_pos rfl]
      · rw [hah]; exact hancA
      · rw [hah]; exact hancB
      · intro h2 hh2 hh2A hh2B
        rw [hah] at hh2
        exact hinv h2 hh2 hh2A hh2B
  | succ d2 ih =>
    intro h tA tB fuel hg hhA hhB hd hancA hancB hinv hfuel
    obtain ⟨a, ha, hain, hah⟩ := anc_exists hwf hA hg hhA
    rw [hancA] at ha
    obtain rfl : tA = a := Option.some.inj ha
    obtain ⟨a2, ha2, ha2in, ha2h⟩ := anc_exists hwf hB hg hhB
    rw [hancB] at ha2
    obtain rfl : tB = a2 := Option.some.inj ha2
    cases fuel with
    | zero => omega
    | succ f =>
      by_cases hEq : tA.hash = tB.hash
      · have htAB : tA = tB := by
          have h1 : GetBlock bc tA.hash = some tA := hain
          have h2 : GetBlock bc tB.hash = some tB := ha2in
          rw [hEq] at h1
          rw [h1] at h2
          simpa using h2
        refine ⟨tB, ?_, by omega, by omega, ?_, ?_, ?_⟩
        · rw [meetLoop, if_pos hEq]
        · rw [ha2h, ← htAB, hah, htAB] at *
          exact hancA
        · rw [ha2h]; exact hancB
        · intro h2 hh2 hh2A hh2B
          rw [ha2h] at hh2
          exact hinv h2 hh2 hh2A hh2B
      · have hgh : g < h := by
          rcases Nat.lt_or_ge g h with hlt | hge
          · exact hlt
          · exfalso
            have hhg : h = g := by omega
            rw [hhg] at hancA hancB
            rw [hancA, hancB] at hgen
            exact hEq (by rw [Option.some.inj hgen])
        obtain ⟨pA, hpA, hpAin, hpAh⟩ := instore_parent hwf hain (by omega)
        obtain ⟨pB, hpB, hpBin, hpBh⟩ := instore_parent hwf ha2in (by omega)
        have hancA2 : anc bc A (h - 1) = some pA := by
          rw [anc_step_down (show h - 1 < A.height by omega),
            show h - 1 + 1 = h by omega, hancA]
          simpa using hpA
        have hancB2 : anc bc B (h - 1) = some pB := by
          rw [anc_step_down (show h - 1 < B.height by omega),
            show h - 1 + 1 = h by omega, hancB]
          simpa using hpB
        have hinv2 : ∀ h2, h - 1 < h2 → h2 ≤ A.height → h2 ≤ B.height →
            anc bc A h2 ≠ anc bc B h2 := by
          intro h2 hh2 hh2A hh2B
          by_cases hh2h : h2 = h
          · subst hh2h
            rw [hancA, hancB]
            intro hcon
            exact hEq (by rw [Option.some.inj hcon])
          · exact hinv h2 (by omega) hh2A hh2B
        obtain ⟨c, hc, hcg, hch, hcA, hcB, hcinv⟩ := ih (h - 1) pA pB f
          (by omega) (by omega) (by omega) (by omega) hancA2 hancB2 hinv2 (by omega)
        refine ⟨c, ?_, hcg, by omega, hcA, hcB, hcinv⟩
        rw [meetLoop, if_neg hEq, hpA, hpB]
        exact hc

theorem fca_step (bc : BlockChain) (b target : Block)
    (hcond : ¬ ((decide (b.height ≤ bc.tailBlock.height) &&
      (match GetBlockByHeight bc b.height with
       | some localBlock => localBlock.hash == b.hash
       | none => false)) = true))
    (hanchor : (match GetBlock bc b.hash with
        | some t => some t
        | none => GetBlock bc b.parentHash) = some target) :
    FindCommonAncestorWithTail bc b =
      (match descendAbove bc target.height (bc.tailBlock.height + 1) bc.tailBlock with
       | .error e => .error e
       | .ok tail1 =>
         match descendAbove bc tail1.height (target.height + 1) target with
         | .error e => .error e
         | .ok target1 => meetLoop bc (tail1.height + 1) tail1 target1) := by
  rw [FindCommonAncestorWithTail, if_neg hcond, hanchor]

/-- Claim C2: on a well-formed store in which the current tail and the
target block both resolve, share the genesis-level ancestor, and the height
index is sound at the target's height, FindCommonAncestorWithTail returns a
block that is an ancestor of both the current tail and the target and has
the maximum height among all their common ancestors. -/
theorem findCommonAncestorWithTail_lca :
    ∀ (bc : BlockChain) (g : Nat) (b : Block),
      StoreWF bc g = true →
      InStore bc bc.tailBlock →
      InStore bc b →
      anc bc bc.tailBlock g = anc bc b g →
      fastPathSound bc b = true →
      ∃ c, FindCommonAncestorWithTail bc b = .ok c ∧
        IsCommonAncestor bc g c bc.tailBlock b ∧
        ∀ c2, IsCommonAncestor bc g c2 bc.tailBlock b → c2.height ≤ c.height := by
  intro bc g b hwf hA hb hgen hfps
  have hbeq : GetBlock bc b.hash = some b := hb
  have hgb : g ≤ b.height := (storeWF_spec hwf hbeq).2.1
  have hAeq : GetBlock bc bc.tailBlock.hash = some bc.tailBlock := hA
  have hgA : g ≤ bc.tailBlock.height := (storeWF_spec hwf hAeq).2.1
  by_cases hcond : (decide (b.height ≤ bc.tailBlock.height) &&
      (match GetBlockByHeight bc b.height with
       | some localBlock => localBlock.hash == b.hash
       | none => false)) = true
  · have hcond2 := hcond
    rw [Bool.and_eq_true] at hcond2
    have hle : b.height ≤ bc.tailBlock.height := of_decide_eq_true hcond2.1
    have hfca : FindCommonAncestorWithTail bc b = .ok b := by
      rw [FindCommonAncestorWithTail, if_pos hcond]
    have hancAb : anc bc bc.tailBlock b.height = some b := by
      have h2 := hcond2.2
      cases hgbh : GetBlockByHeight bc b.height with
      | none => rw [hgbh] at h2; simp at h2
      | some lb =>
        rw [hgbh] at h2
        have hlbhash : lb.hash = b.hash := by simpa using h2
        rw [fastPathSound, hgbh] at hfps
        have hbt : (lb.hash == b.hash) = true := beq_iff_eq.mpr hlbhash
        simp only [hbt, Bool.not_true, Bool.false_or, beq_iff_eq] at hfps
        exact hfps
    refine ⟨b, hfca, ?_, ?_⟩
    · rw [IsCommonAncestor]
      exact ⟨hgb, hle, le_refl _, hancAb, anc_self bc b⟩
    · intro c2 hc2
      rw [IsCommonAncestor] at hc2
      exact hc2.2.2.1
  · have hanchor : (match GetBlock bc b.hash with
        | some t => some t
        | none => GetBlock bc b.parentHash) = some b := by
      rw [hbeq]
    rcases Nat.le_total b.height bc.tailBlock.height with hle | hle
    · obtain ⟨a1, hd1, hancA1, ha1in, ha1h⟩ := descendAbove_ok hwf hgb
        (bc.tailBlock.height - b.height) bc.tailBlock (bc.tailBlock.height + 1)
        hA (by omega) (by omega)
      have hd2 : descendAbove bc a1.height (b.height + 1) b = .ok b :=
        descendAbove_noop bc a1.height (b.height + 1) b (by omega)
      obtain ⟨c, hm, hcg, hch, hcA, hcB, hcinv⟩ := meetLoop_ok hwf hA hb hgen
        (b.height - g) b.height a1 b (a1.height + 1)
        hgb hle (le_refl _) rfl hancA1 (anc_self bc b)
        (by intro h2 hh2 hh2A hh2B; omega) (by omega)
      have hfca : FindCommonAncestorWithTail bc b = .ok c := by
        rw [fca_step bc b b hcond hanchor, hd1]
        show (match descendAbove bc a1.height (b.height + 1) b with
              | Except.error e => Except.error e
              | Except.ok target1 => meetLoop bc (a1.height + 1) a1 target1) = _
        rw [hd2]
        show meetLoop bc (a1.height + 1) a1 b = _
        exact hm
      refine ⟨c, hfca, ?_, ?_⟩
      · rw [IsCommonAncestor]
        exact ⟨hcg, by omega, hch, hcA, hcB⟩
      · intro c2 hc2
        rw [IsCommonAncestor] at hc2
        by_contra hgt
        push_neg at hgt
        exact hcinv c2.height hgt hc2.2.1 hc2.2.2.1
          (by rw [hc2.2.2.2.1, hc2.2.2.2.2])
    · have hd1 : descendAbove bc b.height (bc.tailBlock.height + 1) bc.tailBlock =
          .ok bc.tailBlock :=
        descendAbove_noop bc b.height (bc.tailBlock.height + 1) bc.tailBlock hle
      obtain ⟨b1, hd2, hancB1, hb1in, hb1h⟩ := descendAbove_ok hwf hgA
        (b.height - bc.tailBlock.height) b (b.height + 1) hb (by omega) (by omega)
      obtain ⟨c, hm, hcg, hch, hcA, hcB, hcinv⟩ := meetLoop_ok hwf hA hb hgen
        (bc.tailBlock.height - g) bc.tailBlock.height bc.tailBlock b1
        (bc.tailBlock.height + 1)
        hgA (le_refl _) hle rfl (anc_self bc bc.tailBlock) hancB1
        (by intro h2 hh2 hh2A hh2B; omega) (by omega)
      have hfca : FindCommonAncestorWithTail bc b = .ok c := by
        rw [fca_step bc b b hcond hanchor, hd1]
        show (match descendAbove bc bc.tailBlock.height (b.height + 1) b with
              | Except.error e => Except.error e
              | Except.ok target1 =>
                meetLoop bc (bc.tailBlock.height + 1) bc.tailBlock target1) = _
        rw [hd2]
        show meetLoop bc (bc.tailBlock.height + 1) bc.tailBlock b1 = _
        exact hm
      refine ⟨c, hfca, ?_, ?_⟩
      · rw [IsCommonAncestor]
        exact ⟨hcg, hch, by omega, hcA, hcB⟩
      · intro c2 hc2
        rw [IsCommonAncestor] at hc2
        by_contra hgt
        push_neg at hgt
        exact hcinv c2.height hgt hc2.2.1 hc2.2.2.1
          (by rw [hc2.2.2.2.1, hc2.2.2.2.2])

theorem findCommonAncestorWithTail_lca_witness :
    StoreWF wBC 1 = true ∧
    GetBlock wBC wBC.tailBlock.hash = some wBC.tailBlock ∧
    GetBlock wBC wB3s.hash = some wB3s ∧
    anc wBC wBC.tailBlock 1 = anc wBC wB3s 1 ∧
    fastPathSound wBC wB3s = true ∧
    ∃ c, FindCommonAncestorWithTail wBC wB3s = .ok c ∧
      IsCommonAncestor wBC 1 c wBC.tailBlock wB3s ∧
      ∀ c2, IsCommonAncestor wBC 1 c2 wBC.tailBlock wB3s → c2.height ≤ c.height :=
  ⟨by decide, by decide, by decide, by decide, by decide,
   findCommonAncestorWithTail_lca wBC 1 wB3s (by decide)
     (show GetBlock wBC wBC.tailBlock.hash = some wBC.tailBlock by decide)
     (show GetBlock wBC wB3s.hash = some wB3s by decide)
     (by decide) (by decide)⟩
